import Mathlib

/-!
Verification of the translation caching and batching engine of the deepl-json
tool against its specification.

The engine (the first source document) walks a JSON tree, collects translatable
strings into a cache keyed by a placeholder-normalized form, partitions the
cache keys into batches of at most 49, resolves each batch positionally from
the provider response, and re-walks the tree substituting cached, placeholder
restored translations.

Strings are modelled as lists of characters (`JStr`).  The JavaScript regular
expression scans are embedded as explicit left-to-right scanners, fueled by the
input length so that every definition is executable and kernel-computable.
JavaScript objects used as string-keyed maps are modelled as association lists
in insertion order, with update-in-place on existing keys.
-/

namespace DeeplJson

abbrev JStr := List Char

/-- Prepend a character to the first segment of a segment list (used when a
scanner advances over one non-matching character). -/
def consHead (c : Char) : List JStr → List JStr
  | [] => [[c]]
  | s :: rest => (c :: s) :: rest

/-- Greedily take the leading run of decimal digit characters, returning the
run and the remainder.  Embeds the backslash-d-plus part of the marker regex
of `translate`. -/
def takeDigits : JStr → (JStr × JStr)
  | [] => ([], [])
  | c :: r => if c.isDigit then let p := takeDigits r; (c :: p.1, p.2) else ([], c :: r)

/-- The JavaScript line terminators (line feed, carriage return, line
separator, paragraph separator): the characters the dot of a regular
expression without the dotAll flag does not match. -/
def isLineTerm (c : Char) : Bool :=
  c == '\n' || c == '\r' || c == '\u2028' || c == '\u2029'

/-- No character of the string is a line terminator, so the regex dot can
traverse all of it. -/
def noLineTerm (s : JStr) : Prop := ∀ c ∈ s, isLineTerm c = false

/-- Lazy search for the earliest closing double brace, as the non-greedy
`.*?` of the placeholder regex does: returns the (line-terminator-free)
content before the earliest closing pair and the remainder after it, or
`none` when no close is reachable (the dot of the regex matches no line
terminator). -/
def findCloser : JStr → Option (JStr × JStr)
  | [] => none
  | c :: r =>
    if c = '}' ∧ r.head? = some '}' then some ([], r.tail)
    else if isLineTerm c then none
    else (findCloser r).map (fun p => (c :: p.1, p.2))

/-- Does the placeholder pattern (double open brace, lazy content, double
close brace) match at the head of the string?  Returns content and remainder. -/
def phSplit : JStr → Option (JStr × JStr)
  | [] => none
  | [_] => none
  | a :: b :: r => if a = '{' ∧ b = '{' then findCloser r else none

/-- Does the marker pattern (literal less-than, t, one or more digits, slash,
greater-than) match at the head of the string?  Returns the remainder. -/
def markerSplit : JStr → Option JStr
  | [] => none
  | [_] => none
  | a :: b :: r =>
    if a = '<' ∧ b = 't' then
      match takeDigits r with
      | (ds, rest) =>
        if ds = [] then none
        else
          match rest with
          | [] => none
          | [_] => none
          | c :: d :: rem => if c = '/' ∧ d = '>' then some rem else none
    else none

/-- Fueled global scan for the placeholder regex: splits a string into the
list of literal segments between matches and the ordered list of matched
placeholder substrings, advancing one character on failure and past the match
on success, exactly as a global non-overlapping regex scan does. -/
def splitPHF : Nat → JStr → (List JStr × List JStr)
  | 0, _ => ([[]], [])
  | n+1, l =>
    match phSplit l with
    | some (content, rem) =>
      let p := splitPHF n rem
      ([] :: p.1, ('{' :: '{' :: (content ++ ['}', '}'])) :: p.2)
    | none =>
      match l with
      | [] => ([[]], [])
      | c :: r =>
        let p := splitPHF n r
        (consHead c p.1, p.2)

/-- Global scan of the placeholder regex over a string (fuel = length). -/
def splitPH (l : JStr) : List JStr × List JStr := splitPHF (l.length + 1) l

/-- Fueled global scan for the marker regex: returns the literal segments
between the non-overlapping left-to-right marker matches. -/
def splitMkF : Nat → JStr → List JStr
  | 0, _ => [[]]
  | n+1, l =>
    match markerSplit l with
    | some rem => [] :: splitMkF n rem
    | none =>
      match l with
      | [] => [[]]
      | c :: r => consHead c (splitMkF n r)

/-- Global scan of the marker regex over a string (fuel = length). -/
def splitMk (l : JStr) : List JStr := splitMkF (l.length + 1) l

/-- Does some position of the string start a marker match? -/
def containsMarker : JStr → Bool
  | [] => false
  | c :: r => (markerSplit (c :: r)).isSome || containsMarker r

/-- Decimal digit character (as produced by JavaScript number-to-string). -/
def digitChar : Nat → Char
  | 0 => '0' | 1 => '1' | 2 => '2' | 3 => '3' | 4 => '4'
  | 5 => '5' | 6 => '6' | 7 => '7' | 8 => '8' | _ => '9'

/-- Fueled decimal representation of a natural number. -/
def natDigitsF : Nat → Nat → JStr
  | 0, _ => []
  | fuel+1, n => if n < 10 then [digitChar n] else natDigitsF fuel (n / 10) ++ [digitChar (n % 10)]

/-- Decimal representation of a natural number, most significant digit
first, as JavaScript template interpolation of a counter produces. -/
def natDigits (n : Nat) : JStr := natDigitsF (n + 1) n

/-- The i-th positional marker inserted in place of the i-th placeholder. -/
def marker (i : Nat) : JStr := '<' :: 't' :: (natDigits i ++ ['/', '>'])

/-- Rebuild the normalized key: interleave the literal segments with the
markers numbered from `i` upward.  This is the replacement step of the
placeholder regex in `addEntry` and `translate`. -/
def buildKey : List JStr → Nat → JStr
  | [], _ => []
  | s :: rest, i =>
    match rest with
    | [] => s
    | r1 :: rrest => s ++ marker i ++ buildKey (r1 :: rrest) (i + 1)

/-- The string JavaScript substitutes when the replacement callback indexes
past the end of the stored placeholder array. -/
def undefinedLit : JStr := "undefined".toList

/-- Interleave the marker-free segments of a translated key with the stored
placeholders positionally: the replacement step of the marker regex in
`translate`; an out-of-range index substitutes the string "undefined". -/
def buildRestore : List JStr → List JStr → Nat → JStr
  | [], _, _ => []
  | s :: rest, phs, i =>
    match rest with
    | [] => s
    | r1 :: rrest => s ++ phs.getD i undefinedLit ++ buildRestore (r1 :: rrest) phs (i + 1)

/-- Join segments and matched substrings back into the original scanned
string. -/
def interleave : List JStr → List JStr → JStr
  | [], _ => []
  | s :: rest, ms =>
    match ms with
    | [] => s
    | m :: mrest => s ++ m ++ interleave rest mrest

/-- Placeholder normalization: the matched placeholder substrings of a string
together with the string with each match replaced by its positional marker.
When there is no match the string is used unchanged, as in the source. -/
def normalize (t : JStr) : JStr × List JStr :=
  let p := splitPH t
  if p.2 = [] then (t, []) else (buildKey p.1 0, p.2)

/-- Marker denormalization: substitute the i-th stored placeholder for the
i-th marker occurrence of a translated key (lines 207-214 of the source). -/
def denormalize (key : JStr) (phs : List JStr) : JStr :=
  buildRestore (splitMk key) phs 0

/-- `truncateString` of the source with its default length 50. -/
def truncateStr (s : JStr) : JStr :=
  if s.length > 50 then s.take 50 ++ "...".toList else s

/-- Lookup in a JavaScript object used as a string-keyed map (own
properties, insertion order). -/
def alookup {α : Type} : List (JStr × α) → JStr → Option α
  | [], _ => none
  | (k', v') :: rest, k => if k' = k then some v' else alookup rest k

/-- Assignment in a JavaScript object used as a string-keyed map: an existing
key keeps its position and gets the new value, a new key is appended. -/
def aset {α : Type} : List (JStr × α) → JStr → α → List (JStr × α)
  | [], k, v => [(k, v)]
  | (k', v') :: rest, k, v => if k' = k then (k', v) :: rest else (k', v') :: aset rest k v

/-- JavaScript truthiness of a property read: absent and empty string are
falsy, a non-empty string is truthy. -/
def jsTruthy : Option JStr → Bool
  | none => false
  | some [] => false
  | some (_ :: _) => true

/-- The mutable module state of the engine: the translation cache `cache`
(unresolved entries hold the empty string), the running character total
`totalChars`, and `placeholderMap` from normalized keys to their stored
placeholder lists. -/
structure St where
  cache : List (JStr × JStr)
  totalChars : Nat
  placeholderMap : List (JStr × List JStr)
deriving DecidableEq

/-- The initial state: empty cache, zero characters, empty placeholder map. -/
def St0 : St := ⟨[], 0, []⟩

/-- `addEntry` of the source: the recording leaf action of the collection
pass.  Empty or non-string input is returned unchanged; otherwise the
normalized key is ensured in the cache (guarded by JavaScript truthiness of
the current cache value) while the original text is returned. -/
def addEntry (s : St) (text : JStr) : St × JStr :=
  if text = [] then (s, text)
  else
    let phs := (splitPH text).2
    if phs = [] then
      (if jsTruthy (alookup s.cache text) then s
       else { s with cache := aset s.cache text [],
                     totalChars := s.totalChars + text.length }, text)
    else
      let key := buildKey (splitPH text).1 0
      (if jsTruthy (alookup s.cache key) then s
       else { cache := aset s.cache key [],
              totalChars := s.totalChars + key.length,
              placeholderMap := aset s.placeholderMap key phs }, text)

/-- The message thrown by `translate` when a key is absent from the cache. -/
def errNotFound (key : JStr) : JStr :=
  "Entry not found in cache, should never happen: ".toList ++ truncateStr key

/-- The runtime error raised when the replacement callback reads an index of
an undefined stored placeholder array. -/
def errType : JStr := "TypeError: Cannot read properties of undefined".toList

/-- `translate` of the source: the substitution leaf action.  Empty input is
returned unchanged; otherwise the text is normalized to its key, the key is
looked up in the cache (absence throws), and for placeholder-bearing text the
stored placeholders are substituted back for the markers of the cached
translation. -/
def translate (s : St) (text : JStr) : Except JStr JStr :=
  if text = [] then .ok text
  else
    let phs := (splitPH text).2
    let key := if phs = [] then text else buildKey (splitPH text).1 0
    match alookup s.cache key with
    | none => .error (errNotFound key)
    | some tr =>
      if phs = [] then .ok tr
      else
        match alookup s.placeholderMap key with
        | some stored => .ok (buildRestore (splitMk tr) stored 0)
        | none => if containsMarker tr then .error errType else .ok tr

/-- The JSON value model: null, booleans, numbers, strings, arrays, and
objects as ordered field lists. -/
inductive Json where
  | null
  | bool (b : Bool)
  | num (n : Int)
  | str (s : JStr)
  | arr (xs : List Json)
  | obj (fs : List (JStr × Json))

mutual

/-- Node count of a JSON value, used as traversal fuel. -/
def jfuel : Json → Nat
  | .null => 1
  | .bool _ => 1
  | .num _ => 1
  | .str _ => 1
  | .arr xs => 1 + jfuelL xs
  | .obj fs => 1 + jfuelF fs

/-- Node count of a list of JSON values. -/
def jfuelL : List Json → Nat
  | [] => 0
  | x :: xs => jfuel x + jfuelL xs

/-- Node count of a JSON object field list. -/
def jfuelF : List (JStr × Json) → Nat
  | [] => 0
  | (_, v) :: fs => jfuel v + jfuelF fs

end

/-- A leaf action: a stateful, possibly throwing transformation of string
leaves. -/
abbrev Act := St → JStr → Except JStr (St × JStr)

/-- The recording action of the collection pass (never throws). -/
def addEntryAct : Act := fun s t => .ok (addEntry s t)

/-- The substitution action of the reconstruction pass (reads the state). -/
def translateAct : Act := fun s t => (translate s t).map (fun r => (s, r))

/-- The identity leaf action. -/
def idAct : Act := fun s t => .ok (s, t)

/-- Traverse a list of array elements in index order, threading the state. -/
def travListT (rec : St → Json → Except JStr (St × Json)) :
    St → List Json → Except JStr (St × List Json)
  | s, [] => .ok (s, [])
  | s, x :: xs =>
    match rec s x with
    | .error e => .error e
    | .ok (s', y) =>
      match travListT rec s' xs with
      | .error e => .error e
      | .ok (s'', ys) => .ok (s'', y :: ys)

/-- Traverse the fields of an object in key order, building the new object by
JavaScript property assignment into the accumulator.  When `tp` (the
`translateProperties` flag) is set, each key is passed through the global
`translate` function — not through the supplied leaf action — exactly as in
the source. -/
def travFieldsT (tp : Bool) (rec : St → Json → Except JStr (St × Json)) :
    St → List (JStr × Json) → List (JStr × Json) → Except JStr (St × List (JStr × Json))
  | s, acc, [] => .ok (s, acc)
  | s, acc, (k, v) :: fs =>
    match (if tp then translate s k else .ok k) with
    | .error e => .error e
    | .ok k' =>
      match rec s v with
      | .error e => .error e
      | .ok (s', v') => travFieldsT tp rec s' (aset acc k' v') fs

/-- Fueled `traverseJSON` of the source: arrays are walked element-wise,
objects rebuild a new field list (keys optionally through `translate`),
string leaves go through the supplied action, all other scalars pass through
unchanged. -/
def travF (tp : Bool) (act : Act) : Nat → St → Json → Except JStr (St × Json)
  | 0, _, _ => .error "out of fuel".toList
  | n+1, s, j =>
    match j with
    | .null => .ok (s, .null)
    | .bool b => .ok (s, .bool b)
    | .num m => .ok (s, .num m)
    | .str t =>
      match act s t with
      | .error e => .error e
      | .ok p => .ok (p.1, .str p.2)
    | .arr xs =>
      match travListT (travF tp act n) s xs with
      | .error e => .error e
      | .ok p => .ok (p.1, .arr p.2)
    | .obj fs =>
      match travFieldsT tp (travF tp act n) s [] fs with
      | .error e => .error e
      | .ok p => .ok (p.1, .obj p.2)

/-- `traverseJSON` of the source, with fuel derived from the node count
(always sufficient, see `travF_fuel_irrel`). -/
def traverseJSON (tp : Bool) (act : Act) (s : St) (j : Json) : Except JStr (St × Json) :=
  travF tp act (jfuel j) s j

/-- Append a key to the last batch, creating a first batch when none exists:
the body of the batching loop before the size check. -/
def pushLast (k : JStr) : List (List JStr) → List (List JStr)
  | [] => [[k]]
  | b :: bs =>
    match bs with
    | [] => [b ++ [k]]
    | b1 :: brest => b :: pushLast k (b1 :: brest)

/-- The last batch of a batch list (the JavaScript `batches[batches.length-1]`,
the empty list when there are no batches). -/
def lastD : List (List JStr) → List JStr
  | [] => []
  | b :: bs =>
    match bs with
    | [] => b
    | b1 :: brest => lastD (b1 :: brest)

/-- One iteration of the batching loop of `main` (lines 95-105): push the key
onto the current last batch, then open a fresh empty batch as soon as the
last batch has reached 49 items. -/
def batchStep (bs : List (List JStr)) (k : JStr) : List (List JStr) :=
  let bs' := pushLast k bs
  if 49 ≤ (lastD bs').length then bs' ++ [[]] else bs'

/-- The batch partition of the ordered cache key list, as computed by the
loop of `main`. -/
def mkBatches (keys : List JStr) : List (List JStr) := keys.foldl batchStep []

/-- The sequential writes of `response.map((res, i) => cache[batch[i]] =
res.text)`, starting at index `i`. -/
def resolveBatchAux (cache : List (JStr × JStr)) (batch : List JStr) (i : Nat) :
    List JStr → List (JStr × JStr)
  | [] => cache
  | res :: rest => resolveBatchAux (aset cache (batch.getD i undefinedLit) res) batch (i + 1) rest

/-- Write a provider response back into the cache (lines 118-120):
`response.map((res, i) => cache[batch[i]] = res.text)`.  An index past the
end of the batch reads `undefined`, which JavaScript coerces to the property
name "undefined". -/
def resolveBatch (cache : List (JStr × JStr)) (batch : List JStr) (response : List JStr) :
    List (JStr × JStr) :=
  resolveBatchAux cache batch 0 response

/-- The shape of a matched placeholder substring: a double open brace, a
line-terminator-free content containing no closing pair (non-greedy
matching), and a double close brace. -/
def IsPHMatch (m : JStr) : Prop :=
  ∃ content : JStr, m = '{' :: '{' :: (content ++ ['}', '}']) ∧ noLineTerm content ∧
    ∀ x y : JStr, content ≠ x ++ '}' :: '}' :: y

/-- Well-formed JSON values: every object has pairwise distinct keys, as
values produced by a JSON parser do. -/
inductive JWF : Json → Prop
  | null : JWF .null
  | bool (b : Bool) : JWF (.bool b)
  | num (n : Int) : JWF (.num n)
  | str (s : JStr) : JWF (.str s)
  | arr (xs : List Json) : (∀ x ∈ xs, JWF x) → JWF (.arr xs)
  | obj (fs : List (JStr × Json)) : (fs.map Prod.fst).Nodup →
      (∀ kv ∈ fs, JWF kv.2) → JWF (.obj fs)

/-!  ## Scanner adequacy: shape lemmas and fuel irrelevance  -/

theorem takeDigits_append (ds l : JStr) (hds : ∀ c ∈ ds, c.isDigit)
    (hl : ∀ c, l.head? = some c → ¬ c.isDigit) : takeDigits (ds ++ l) = (ds, l) := by
  induction ds with
  | nil =>
    rw [List.nil_append]
    cases l with
    | nil => rfl
    | cons c r =>
      have := hl c rfl
      simp [takeDigits, this]
  | cons d ds ih =>
    have hd : d.isDigit := hds d (by simp)
    rw [List.cons_append, takeDigits, if_pos hd, ih (fun c hc => hds c (by simp [hc]))]

theorem takeDigits_shape : ∀ l : JStr, (takeDigits l).1 ++ (takeDigits l).2 = l ∧
    (∀ c ∈ (takeDigits l).1, c.isDigit) := by
  intro l
  induction l with
  | nil => simp [takeDigits]
  | cons c r ih =>
    by_cases h : c.isDigit
    · rw [takeDigits, if_pos h]
      refine ⟨by simpa using ih.1, ?_⟩
      intro d hd
      simp only [List.mem_cons] at hd
      rcases hd with rfl | hd
      · exact h
      · exact ih.2 d hd
    · rw [takeDigits, if_neg h]
      simp

theorem findCloser_sound : ∀ {l c rem : JStr}, findCloser l = some (c, rem) →
    l = c ++ '}' :: '}' :: rem ∧ noLineTerm c := by
  intro l
  induction l with
  | nil => intro c rem h; simp [findCloser] at h
  | cons a r ih =>
    intro c rem h
    rw [findCloser] at h
    by_cases h1 : a = '}' ∧ r.head? = some '}'
    · rw [if_pos h1] at h
      obtain ⟨rfl, hr⟩ := h1
      cases r with
      | nil => simp at hr
      | cons b rr =>
        obtain rfl : b = '}' := by simpa using hr
        obtain ⟨rfl, rfl⟩ : c = [] ∧ rem = rr := by
          have h' := h.symm
          simp only [Option.some.injEq, Prod.mk.injEq] at h'
          exact ⟨h'.1, by simpa using h'.2⟩
        simp [noLineTerm]
    · rw [if_neg h1] at h
      by_cases h2 : isLineTerm a = true
      · rw [if_pos h2] at h; exact absurd h (by simp)
      · rw [if_neg h2] at h
        cases hfc : findCloser r with
        | none => rw [hfc] at h; simp at h
        | some p =>
          rw [hfc] at h
          obtain ⟨c1, rem1⟩ := p
          simp only [Option.map_some', Option.some.injEq, Prod.mk.injEq] at h
          obtain ⟨rfl, rfl⟩ : c = a :: c1 ∧ rem = rem1 := ⟨h.1.symm, h.2.symm⟩
          obtain ⟨hsh, hnl⟩ := ih hfc
          refine ⟨by rw [hsh]; simp, ?_⟩
          intro x hx
          simp only [List.mem_cons] at hx
          rcases hx with rfl | hx
          · simpa using h2
          · exact hnl x hx

theorem findCloser_complete : ∀ {b : JStr}, noLineTerm b → ∀ c : JStr,
    (findCloser (b ++ '}' :: '}' :: c)).isSome := by
  intro b
  induction b with
  | nil =>
    intro _ c
    rw [List.nil_append, findCloser]
    simp
  | cons a b ih =>
    intro h c
    rw [List.cons_append, findCloser]
    by_cases h1 : a = '}' ∧ (b ++ '}' :: '}' :: c).head? = some '}'
    · rw [if_pos h1]; simp
    · rw [if_neg h1]
      have ha : ¬ isLineTerm a = true := by
        have := h a (List.mem_cons_self a b)
        simp [this]
      rw [if_neg ha]
      have := ih (fun x hx => h x (List.mem_cons_of_mem a hx)) c
      cases hfc : findCloser (b ++ '}' :: '}' :: c) with
      | none => rw [hfc] at this; simp at this
      | some p => simp

theorem phSplit_sound : ∀ {l c rem : JStr}, phSplit l = some (c, rem) →
    l = '{' :: '{' :: (c ++ '}' :: '}' :: rem) ∧ noLineTerm c := by
  intro l c rem h
  match l with
  | [] => simp [phSplit] at h
  | [a] => simp [phSplit] at h
  | a :: b :: r =>
    rw [phSplit] at h
    by_cases h1 : a = '{' ∧ b = '{'
    · rw [if_pos h1] at h
      obtain ⟨rfl, rfl⟩ := h1
      obtain ⟨hsh, hnl⟩ := findCloser_sound h
      exact ⟨by rw [hsh], hnl⟩
    · rw [if_neg h1] at h; simp at h

theorem markerSplit_sound : ∀ {l rem : JStr}, markerSplit l = some rem →
    ∃ ds : JStr, ds ≠ [] ∧ (∀ c ∈ ds, c.isDigit) ∧ l = '<' :: 't' :: (ds ++ '/' :: '>' :: rem) := by
  intro l rem h
  match l with
  | [] => simp [markerSplit] at h
  | [a] => simp [markerSplit] at h
  | a :: b :: r =>
    rw [markerSplit] at h
    by_cases h1 : a = '<' ∧ b = 't'
    · rw [if_pos h1] at h
      obtain ⟨rfl, rfl⟩ := h1
      rcases htd : takeDigits r with ⟨ds, rest⟩
      rw [htd] at h
      obtain ⟨hds, hdig⟩ := takeDigits_shape r
      rw [htd] at hds hdig
      simp only [] at h hds hdig
      by_cases h2 : ds = []
      · rw [if_pos h2] at h; simp at h
      · rw [if_neg h2] at h
        match hrest : rest with
        | [] => simp at h
        | [c] => simp at h
        | c :: d :: rem' =>
          simp only [] at h
          by_cases h3 : c = '/' ∧ d = '>'
          · rw [if_pos h3] at h
            obtain ⟨rfl, rfl⟩ := h3
            obtain rfl : rem = rem' := by simpa using h.symm
            exact ⟨ds, h2, hdig, by rw [← hds]⟩
          · rw [if_neg h3] at h; simp at h
    · rw [if_neg h1] at h; simp at h

theorem phSplit_length {l c rem : JStr} (h : phSplit l = some (c, rem)) :
    rem.length < l.length := by
  obtain ⟨hsh, -⟩ := phSplit_sound h
  rw [hsh]; simp; omega

theorem markerSplit_length {l rem : JStr} (h : markerSplit l = some rem) :
    rem.length < l.length := by
  obtain ⟨ds, -, -, hsh⟩ := markerSplit_sound h
  rw [hsh]; simp; omega

theorem splitPHF_succ (n : Nat) (l : JStr) : splitPHF (n+1) l =
    match phSplit l with
    | some (content, rem) =>
      let p := splitPHF n rem
      ([] :: p.1, ('{' :: '{' :: (content ++ ['}', '}'])) :: p.2)
    | none =>
      match l with
      | [] => ([[]], [])
      | c :: r =>
        let p := splitPHF n r
        (consHead c p.1, p.2) := rfl

theorem splitMkF_succ (n : Nat) (l : JStr) : splitMkF (n+1) l =
    match markerSplit l with
    | some rem => [] :: splitMkF n rem
    | none =>
      match l with
      | [] => [[]]
      | c :: r => consHead c (splitMkF n r) := rfl

theorem splitPHF_irrel : ∀ n m l, l.length < n → l.length < m →
    splitPHF n l = splitPHF m l := by
  intro n
  induction n with
  | zero => intro m l h; omega
  | succ n ih =>
    intro m l hn hm
    cases m with
    | zero => omega
    | succ m =>
      rw [splitPHF_succ, splitPHF_succ]
      cases hph : phSplit l with
      | some p =>
        obtain ⟨c, rem⟩ := p
        have hlen := phSplit_length hph
        simp only []
        rw [ih m rem (by omega) (by omega)]
      | none =>
        cases l with
        | nil => rfl
        | cons a r =>
          simp only []
          rw [ih m r (by simp at hn ⊢; omega) (by simp at hm ⊢; omega)]

theorem splitMkF_irrel : ∀ n m l, l.length < n → l.length < m →
    splitMkF n l = splitMkF m l := by
  intro n
  induction n with
  | zero => intro m l h; omega
  | succ n ih =>
    intro m l hn hm
    cases m with
    | zero => omega
    | succ m =>
      rw [splitMkF_succ, splitMkF_succ]
      cases hmk : markerSplit l with
      | some rem =>
        have hlen := markerSplit_length hmk
        simp only []
        rw [ih m rem (by omega) (by omega)]
      | none =>
        cases l with
        | nil => rfl
        | cons a r =>
          simp only []
          rw [ih m r (by simp at hn ⊢; omega) (by simp at hm ⊢; omega)]

theorem splitPH_pos {l c rem : JStr} (h : phSplit l = some (c, rem)) :
    splitPH l = (([] : JStr) :: (splitPH rem).1,
      ('{' :: '{' :: (c ++ ['}', '}'])) :: (splitPH rem).2) := by
  have hlen := phSplit_length h
  rw [splitPH, splitPHF_succ, h]
  simp only []
  rw [splitPH, splitPHF_irrel l.length (rem.length + 1) rem hlen (by omega)]

theorem splitPH_nil : splitPH [] = ([[]], []) := rfl

theorem splitPH_neg {a : Char} {r : JStr} (h : phSplit (a :: r) = none) :
    splitPH (a :: r) = (consHead a (splitPH r).1, (splitPH r).2) := by
  rw [splitPH, splitPHF_succ, h]
  simp only []
  rw [splitPH, splitPHF_irrel (a :: r).length (r.length + 1) r (by simp) (by omega)]

theorem splitMk_pos {l rem : JStr} (h : markerSplit l = some rem) :
    splitMk l = [] :: splitMk rem := by
  have hlen := markerSplit_length h
  rw [splitMk, splitMkF_succ, h]
  simp only []
  rw [splitMk, splitMkF_irrel l.length (rem.length + 1) rem hlen (by omega)]

theorem splitMk_nil : splitMk [] = [[]] := rfl

theorem splitMk_neg {a : Char} {r : JStr} (h : markerSplit (a :: r) = none) :
    splitMk (a :: r) = consHead a (splitMk r) := by
  rw [splitMk, splitMkF_succ, h]
  simp only []
  rw [splitMk, splitMkF_irrel (a :: r).length (r.length + 1) r (by simp) (by omega)]

/-!  ## Structure of the placeholder scan  -/

theorem findCloser_nobb : ∀ {l c rem : JStr}, findCloser l = some (c, rem) →
    ∀ x y : JStr, c ≠ x ++ '}' :: '}' :: y := by
  intro l
  induction l with
  | nil => intro c rem h; simp [findCloser] at h
  | cons a r ih =>
    intro c rem h x y
    rw [findCloser] at h
    by_cases h1 : a = '}' ∧ r.head? = some '}'
    · rw [if_pos h1] at h
      obtain rfl : c = [] := by
        have h' := h.symm
        simp only [Option.some.injEq, Prod.mk.injEq] at h'
        exact h'.1
      cases x <;> simp
    · rw [if_neg h1] at h
      by_cases h2 : isLineTerm a = true
      · rw [if_pos h2] at h; exact absurd h (by simp)
      · rw [if_neg h2] at h
        cases hfc : findCloser r with
        | none => rw [hfc] at h; simp at h
        | some p =>
          rw [hfc] at h
          obtain ⟨c1, rem1⟩ := p
          simp only [Option.map_some', Option.some.injEq, Prod.mk.injEq] at h
          obtain ⟨rfl, rfl⟩ : c = a :: c1 ∧ rem = rem1 := ⟨h.1.symm, h.2.symm⟩
          intro heq
          cases x with
          | nil =>
            simp only [List.nil_append, List.cons.injEq] at heq
            obtain ⟨rfl, rfl⟩ := heq
            have hsh := (findCloser_sound hfc).1
            rw [hsh] at h1
            exact h1 ⟨rfl, by simp⟩
          | cons x0 xr =>
            simp only [List.cons_append, List.cons.injEq] at heq
            exact ih hfc xr y heq.2

theorem phSplit_nobb {l c rem : JStr} (h : phSplit l = some (c, rem)) :
    ∀ x y : JStr, c ≠ x ++ '}' :: '}' :: y := by
  match l with
  | [] => simp [phSplit] at h
  | [a] => simp [phSplit] at h
  | a :: b :: r =>
    rw [phSplit] at h
    by_cases h1 : a = '{' ∧ b = '{'
    · rw [if_pos h1] at h
      exact findCloser_nobb h
    · rw [if_neg h1] at h; simp at h

theorem interleave_cons (a : Char) (s : JStr) (rest ms : List JStr) :
    interleave ((a :: s) :: rest) ms = a :: interleave (s :: rest) ms := by
  cases ms <;> rfl

theorem interleave_cons_cons (s m : JStr) (rest ms : List JStr) :
    interleave (s :: rest) (m :: ms) = s ++ m ++ interleave rest ms := rfl

theorem interleave_head (s : JStr) (rest ms : List JStr) :
    ∃ w : JStr, interleave (s :: rest) ms = s ++ w := by
  cases ms with
  | nil => exact ⟨[], by simp [interleave]⟩
  | cons m mrest => exact ⟨m ++ interleave rest mrest, by simp [interleave]⟩

theorem consHead_length (a : Char) (segs : List JStr) (h : segs ≠ []) :
    (consHead a segs).length = segs.length := by
  cases segs with
  | nil => exact absurd rfl h
  | cons s rest => rfl

theorem splitPH_specAux : ∀ n : Nat, ∀ l : JStr, l.length < n →
    interleave (splitPH l).1 (splitPH l).2 = l ∧
    (splitPH l).1.length = (splitPH l).2.length + 1 ∧
    (∀ s ∈ (splitPH l).1, ∃ u v : JStr, l = u ++ s ++ v) ∧
    (∀ m ∈ (splitPH l).2, IsPHMatch m) := by
  intro n
  induction n with
  | zero => intro l h; omega
  | succ n ih =>
    intro l hl
    cases hph : phSplit l with
    | some p =>
      obtain ⟨c, rem⟩ := p
      have hlen := phSplit_length hph
      have hsh := (phSplit_sound hph).1
      have hnl := (phSplit_sound hph).2
      have hbb := phSplit_nobb hph
      obtain ⟨ihj, ihl, ihi, ihm⟩ := ih rem (by omega)
      rw [splitPH_pos hph]
      refine ⟨?_, ?_, ?_, ?_⟩
      · rw [interleave_cons_cons, ihj, hsh]
        simp
      · simp only [List.length_cons]
        omega
      · intro s hs
        simp only [List.mem_cons] at hs
        rcases hs with rfl | hs
        · exact ⟨[], l, by simp⟩
        · obtain ⟨u, v, huv⟩ := ihi s hs
          refine ⟨'{' :: '{' :: (c ++ '}' :: '}' :: u), v, ?_⟩
          rw [hsh, huv]
          simp
      · intro m hm
        simp only [List.mem_cons] at hm
        rcases hm with rfl | hm
        · exact ⟨c, rfl, hnl, hbb⟩
        · exact ihm m hm
    | none =>
      cases l with
      | nil =>
        rw [splitPH_nil]
        refine ⟨rfl, rfl, ?_, by simp⟩
        intro s hs
        simp only [List.mem_cons] at hs
        rcases hs with rfl | hs
        · exact ⟨[], [], rfl⟩
        · simp at hs
      | cons a r =>
        obtain ⟨ihj, ihl, ihi, ihm⟩ := ih r (by simp at hl ⊢; omega)
        rw [splitPH_neg hph]
        rcases h1 : (splitPH r).1 with _ | ⟨s₁, tail⟩
        · rw [h1] at ihl; simp at ihl
        · rw [h1] at ihj ihi ihl
          refine ⟨?_, ?_, ?_, ihm⟩
          · simp only [consHead]
            rw [interleave_cons, ihj]
          · simp only [consHead, List.length_cons] at ihl ⊢
            omega
          · intro s hs
            simp only [consHead, List.mem_cons] at hs
            rcases hs with rfl | hs
            · obtain ⟨w, hw⟩ := interleave_head s₁ tail (splitPH r).2
              rw [hw] at ihj
              exact ⟨[], w, by rw [← ihj]; simp⟩
            · obtain ⟨u, v, huv⟩ := ihi s (by simp [hs])
              exact ⟨a :: u, v, by rw [huv]; simp⟩

theorem splitPH_spec (l : JStr) :
    interleave (splitPH l).1 (splitPH l).2 = l ∧
    (splitPH l).1.length = (splitPH l).2.length + 1 ∧
    (∀ s ∈ (splitPH l).1, ∃ u v : JStr, l = u ++ s ++ v) ∧
    (∀ m ∈ (splitPH l).2, IsPHMatch m) :=
  splitPH_specAux (l.length + 1) l (by omega)

/-!  ## Structure of the marker scan  -/

theorem digitChar_isDigit : ∀ d : Nat, (digitChar d).isDigit := by
  intro d
  rcases d with _|_|_|_|_|_|_|_|_|d
  case succ.succ.succ.succ.succ.succ.succ.succ.succ =>
    show ('9').isDigit = true
    decide
  all_goals decide

theorem natDigitsF_spec : ∀ fuel n, n < fuel →
    natDigitsF fuel n ≠ [] ∧ ∀ c ∈ natDigitsF fuel n, c.isDigit := by
  intro fuel
  induction fuel with
  | zero => omega
  | succ fuel ih =>
    intro n hn
    rw [natDigitsF]
    by_cases h : n < 10
    · rw [if_pos h]
      refine ⟨by simp, ?_⟩
      intro c hc
      obtain rfl : c = digitChar n := by simpa using hc
      exact digitChar_isDigit n
    · rw [if_neg h]
      have h10 : n / 10 < fuel := by omega
      obtain ⟨hne, hdig⟩ := ih (n / 10) h10
      refine ⟨by simp [hne], ?_⟩
      intro c hc
      rw [List.mem_append] at hc
      rcases hc with hc | hc
      · exact hdig c hc
      · obtain rfl : c = digitChar (n % 10) := by simpa using hc
        exact digitChar_isDigit _

theorem natDigits_ne_nil (n : Nat) : natDigits n ≠ [] :=
  (natDigitsF_spec (n + 1) n (by omega)).1

theorem natDigits_digits (n : Nat) : ∀ c ∈ natDigits n, c.isDigit :=
  (natDigitsF_spec (n + 1) n (by omega)).2

theorem head?_not_digit {x : Char} (hx : ¬ x.isDigit) (l : JStr) :
    ∀ c, (x :: l).head? = some c → ¬ c.isDigit := by
  intro c hc
  obtain rfl : x = c := by simpa using hc
  exact hx

theorem markerSplit_marker (i : Nat) (rest : JStr) :
    markerSplit (marker i ++ rest) = some rest := by
  have h1 : marker i ++ rest = '<' :: 't' :: (natDigits i ++ '/' :: '>' :: rest) := by
    simp [marker]
  rw [h1, markerSplit, if_pos ⟨rfl, rfl⟩]
  rw [takeDigits_append (natDigits i) ('/' :: '>' :: rest) (natDigits_digits i)
    (head?_not_digit (by decide) _)]
  simp only []
  rw [if_neg (natDigits_ne_nil i)]
  simp

theorem markerSplit_append {l rem : JStr} (h : markerSplit l = some rem) (ext : JStr) :
    markerSplit (l ++ ext) = some (rem ++ ext) := by
  obtain ⟨ds, hne, hdig, rfl⟩ := markerSplit_sound h
  have h1 : ('<' :: 't' :: (ds ++ '/' :: '>' :: rem)) ++ ext
      = '<' :: 't' :: (ds ++ '/' :: '>' :: (rem ++ ext)) := by simp
  rw [h1, markerSplit, if_pos ⟨rfl, rfl⟩]
  rw [takeDigits_append ds ('/' :: '>' :: (rem ++ ext)) hdig
    (head?_not_digit (by decide) _)]
  simp only []
  rw [if_neg hne]
  simp

theorem takeDigits_nondigit_append (r m : JStr)
    (hm : ∀ c, m.head? = some c → ¬ c.isDigit) :
    takeDigits (r ++ m) = ((takeDigits r).1, (takeDigits r).2 ++ m) := by
  induction r with
  | nil =>
    rw [List.nil_append]
    cases m with
    | nil => rfl
    | cons c mr =>
      have := hm c rfl
      show takeDigits (c :: mr) = (([] : JStr), c :: mr)
      rw [takeDigits, if_neg this]
  | cons c r ih =>
    by_cases h : c.isDigit
    · rw [List.cons_append, takeDigits, if_pos h, ih, takeDigits, if_pos h]
    · rw [List.cons_append, takeDigits, if_neg h, takeDigits, if_neg h]
      simp

theorem markerSplit_none_append {l : JStr} (hne : l ≠ []) (h : markerSplit l = none)
    {m : JStr} (hm : m.head? = some '<') : markerSplit (l ++ m) = none := by
  match l with
  | [] => exact absurd rfl hne
  | [a] =>
    cases m with
    | nil => simp at hm
    | cons m0 mr =>
      obtain rfl : m0 = '<' := by simpa using hm
      show markerSplit (a :: '<' :: mr) = none
      rw [markerSplit]
      rw [if_neg (by rintro ⟨-, h2⟩; exact absurd h2 (by decide))]
  | a :: b :: r =>
    rw [markerSplit] at h
    by_cases h1 : a = '<' ∧ b = 't'
    · rw [if_pos h1] at h
      obtain ⟨rfl, rfl⟩ := h1
      show markerSplit ('<' :: 't' :: (r ++ m)) = none
      rw [markerSplit, if_pos ⟨rfl, rfl⟩]
      have hmd : ∀ c, m.head? = some c → ¬ c.isDigit := by
        intro c hc
        rw [hm] at hc
        obtain rfl : '<' = c := by simpa using hc
        decide
      rw [takeDigits_nondigit_append r m hmd]
      rcases htd : takeDigits r with ⟨ds, rest⟩
      rw [htd] at h
      simp only [] at h ⊢
      by_cases h2 : ds = []
      · rw [if_pos h2]
      · rw [if_neg h2]
        rw [if_neg h2] at h
        match hrest : rest with
        | [] =>
          cases m with
          | nil => simp at hm
          | cons m0 mr =>
            obtain rfl : m0 = '<' := by simpa using hm
            cases mr with
            | nil => rfl
            | cons m1 mrr =>
              show (if '<' = '/' ∧ m1 = '>' then some mrr else none) = none
              rw [if_neg (by rintro ⟨hc, -⟩; exact absurd hc (by decide))]
        | [c0] =>
          cases m with
          | nil => simp at hm
          | cons m0 mr =>
            obtain rfl : m0 = '<' := by simpa using hm
            show (if c0 = '/' ∧ '<' = '>' then some mr else none) = none
            rw [if_neg (by rintro ⟨-, hc⟩; exact absurd hc (by decide))]
        | c0 :: d0 :: rr =>
          simp only [] at h
          by_cases h3 : c0 = '/' ∧ d0 = '>'
          · rw [if_pos h3] at h; simp at h
          · show (if c0 = '/' ∧ d0 = '>' then some (rr ++ m) else none) = none
            rw [if_neg h3]
    · show markerSplit (a :: b :: (r ++ m)) = none
      rw [markerSplit, if_neg h1]

/-!  ## The marker-occurrence predicate  -/

theorem containsMarker_iff (l : JStr) : containsMarker l = true ↔
    ∃ a b : JStr, l = a ++ b ∧ (markerSplit b).isSome = true := by
  induction l with
  | nil =>
    rw [containsMarker]
    constructor
    · intro h; simp at h
    · rintro ⟨a, b, heq, hb⟩
      obtain rfl : b = [] := by
        cases a <;> simp_all
      simp [markerSplit] at hb
  | cons c r ih =>
    rw [containsMarker, Bool.or_eq_true]
    constructor
    · rintro (h | h)
      · exact ⟨[], c :: r, by simp, h⟩
      · obtain ⟨a, b, heq, hb⟩ := ih.mp h
        exact ⟨c :: a, b, by simp [heq], hb⟩
    · rintro ⟨a, b, heq, hb⟩
      cases a with
      | nil =>
        left
        simp only [List.nil_append] at heq
        rw [heq]
        exact hb
      | cons a0 ar =>
        right
        apply ih.mpr
        simp only [List.cons_append, List.cons.injEq] at heq
        exact ⟨ar, b, heq.2, hb⟩

theorem containsMarker_append_right {p : JStr} (e : JStr) (h : containsMarker p = true) :
    containsMarker (p ++ e) = true := by
  rw [containsMarker_iff] at h ⊢
  obtain ⟨a, b, heq, hb⟩ := h
  cases hmk : markerSplit b with
  | none => rw [hmk] at hb; simp at hb
  | some rem =>
    exact ⟨a, b ++ e, by rw [heq]; simp, by rw [markerSplit_append hmk]; simp⟩

theorem containsMarker_append_left (p : JStr) {e : JStr} (h : containsMarker e = true) :
    containsMarker (p ++ e) = true := by
  induction p with
  | nil => simpa using h
  | cons c pr ih =>
    rw [List.cons_append, containsMarker, Bool.or_eq_true]
    right
    exact ih

theorem containsMarker_infix {u s v : JStr} (h : containsMarker (u ++ s ++ v) = false) :
    containsMarker s = false := by
  cases hcm : containsMarker s with
  | false => rfl
  | true =>
    have h2 := containsMarker_append_left u (containsMarker_append_right v hcm)
    rw [List.append_assoc] at h
    rw [h2] at h
    simp at h

theorem containsMarker_tail {c : Char} {r : JStr} (h : containsMarker (c :: r) = false) :
    markerSplit (c :: r) = none ∧ containsMarker r = false := by
  rw [containsMarker, Bool.or_eq_false_iff] at h
  exact ⟨Option.not_isSome_iff_eq_none.mp (by simp [h.1]), h.2⟩

/-!  ## Denormalization of a freshly normalized key  -/

theorem splitMk_clean : ∀ {s : JStr}, containsMarker s = false → splitMk s = [s] := by
  intro s
  induction s with
  | nil => intro h; exact splitMk_nil
  | cons c r ih =>
    intro h
    obtain ⟨hms, hcm⟩ := containsMarker_tail h
    rw [splitMk_neg hms, ih hcm]
    rfl

theorem splitMk_clean_marker : ∀ {s : JStr}, containsMarker s = false →
    ∀ (i : Nat) (rest : JStr), splitMk (s ++ marker i ++ rest) = s :: splitMk rest := by
  intro s
  induction s with
  | nil =>
    intro _ i rest
    rw [List.nil_append]
    exact splitMk_pos (markerSplit_marker i rest)
  | cons c s' ih =>
    intro h i rest
    obtain ⟨hms, hcm⟩ := containsMarker_tail h
    have hmhead : (marker i ++ rest).head? = some '<' := by simp [marker]
    have h2 : markerSplit ((c :: s') ++ (marker i ++ rest)) = none :=
      markerSplit_none_append (by simp) hms hmhead
    have h4 : markerSplit (c :: (s' ++ (marker i ++ rest))) = none := by
      rw [← List.cons_append]
      exact h2
    rw [List.append_assoc]
    show splitMk (c :: (s' ++ (marker i ++ rest))) = (c :: s') :: splitMk rest
    rw [splitMk_neg h4]
    rw [← List.append_assoc, ih hcm i rest]
    rfl

theorem splitMk_buildKey : ∀ segs : List JStr, segs ≠ [] →
    (∀ s ∈ segs, containsMarker s = false) → ∀ i, splitMk (buildKey segs i) = segs := by
  intro segs
  induction segs with
  | nil => intro h; exact absurd rfl h
  | cons s rest ih =>
    intro _ hcl i
    cases rest with
    | nil =>
      rw [buildKey]
      exact splitMk_clean (hcl s (by simp))
    | cons r1 rrest =>
      rw [buildKey]
      rw [splitMk_clean_marker (hcl s (by simp)) i (buildKey (r1 :: rrest) (i + 1))]
      rw [ih (by simp) (fun x hx => hcl x (by simp [hx])) (i + 1)]

theorem buildRestore_interleave : ∀ (segs ms pre : List JStr),
    segs.length = ms.length + 1 →
    buildRestore segs (pre ++ ms) pre.length = interleave segs ms := by
  intro segs
  induction segs with
  | nil => intro ms pre h; simp at h
  | cons s rest ih =>
    intro ms pre h
    cases rest with
    | nil =>
      obtain rfl : ms = [] := by
        simp only [List.length_cons, List.length_nil] at h
        exact List.length_eq_zero.mp (by omega)
      rfl
    | cons r1 rrest =>
      cases ms with
      | nil => simp at h
      | cons m mrest =>
        rw [buildRestore]
        have hget : (pre ++ m :: mrest).getD pre.length undefinedLit = m := by
          rw [List.getD_eq_getElem?_getD, List.getElem?_append_right (by omega)]
          simp
        rw [hget]
        have hlen : pre.length + 1 = (pre ++ [m]).length := by simp
        have happ : pre ++ m :: mrest = (pre ++ [m]) ++ mrest := by simp
        rw [hlen, happ, ih mrest (pre ++ [m]) (by simpa using h)]
        rw [interleave_cons_cons]

theorem normalize_no_match {t : JStr} (h : (splitPH t).2 = []) : normalize t = (t, []) := by
  rw [normalize]
  simp only [h, if_pos]

theorem normalize_match {t : JStr} (h : (splitPH t).2 ≠ []) :
    normalize t = (buildKey (splitPH t).1 0, (splitPH t).2) := by
  rw [normalize]
  simp only [h, if_neg, if_false]

theorem splitPH_segs_clean {t : JStr} (h : containsMarker t = false) :
    ∀ s ∈ (splitPH t).1, containsMarker s = false := by
  intro s hs
  obtain ⟨-, -, hi, -⟩ := splitPH_spec t
  obtain ⟨u, v, huv⟩ := hi s hs
  rw [huv] at h
  exact containsMarker_infix h

theorem splitPH_segs_ne_nil (t : JStr) : (splitPH t).1 ≠ [] := by
  obtain ⟨-, hl, -, -⟩ := splitPH_spec t
  intro hh
  rw [hh] at hl
  simp at hl

/-- Round trip of the placeholder codec for any text containing no substring
that itself matches the marker pattern. -/
theorem denormalize_normalize {t : JStr} (h : containsMarker t = false) :
    denormalize (normalize t).1 (normalize t).2 = t := by
  obtain ⟨hj, hl, -, -⟩ := splitPH_spec t
  by_cases hm : (splitPH t).2 = []
  · rw [normalize_no_match hm]
    rw [denormalize, splitMk_clean h]
    rfl
  · rw [normalize_match hm, denormalize]
    rw [splitMk_buildKey (splitPH t).1 (splitPH_segs_ne_nil t) (splitPH_segs_clean h) 0]
    have hbr := buildRestore_interleave (splitPH t).1 (splitPH t).2 [] hl
    simpa [hj] using hbr

/-!  ## The batching loop  -/

theorem pushLast_ne_nil (k : JStr) : ∀ bs : List (List JStr), pushLast k bs ≠ [] := by
  intro bs
  cases bs with
  | nil => simp [pushLast]
  | cons b bs =>
    cases bs with
    | nil => simp [pushLast]
    | cons b1 brest => simp [pushLast]

theorem lastD_concat (bs : List (List JStr)) (b : List JStr) : lastD (bs ++ [b]) = b := by
  induction bs with
  | nil => rfl
  | cons x bs ih =>
    cases bs with
    | nil => rfl
    | cons b1 brest => exact ih

theorem dropLast_eq_self_append (bs : List (List JStr)) (h : bs ≠ []) :
    bs = bs.dropLast ++ [lastD bs] := by
  induction bs with
  | nil => exact absurd rfl h
  | cons b bs ih =>
    cases bs with
    | nil => rfl
    | cons b1 brest =>
      have := ih (by simp)
      calc b :: b1 :: brest = b :: ((b1 :: brest).dropLast ++ [lastD (b1 :: brest)]) := by
            rw [← this]
        _ = (b :: b1 :: brest).dropLast ++ [lastD (b :: b1 :: brest)] := by
            rw [List.dropLast_cons₂]
            rfl

theorem pushLast_spec : ∀ (bs : List (List JStr)) (k : JStr), bs ≠ [] →
    (pushLast k bs).flatten = bs.flatten ++ [k] ∧
    (pushLast k bs).dropLast = bs.dropLast ∧
    lastD (pushLast k bs) = lastD bs ++ [k] ∧
    (pushLast k bs).length = bs.length := by
  intro bs
  induction bs with
  | nil => intro k h; exact absurd rfl h
  | cons b bs ih =>
    intro k _
    cases bs with
    | nil =>
      refine ⟨by simp [pushLast], rfl, rfl, rfl⟩
    | cons b1 brest =>
      obtain ⟨hj, hd, hl, hn⟩ := ih k (by simp)
      rw [pushLast]
      rcases hp : pushLast k (b1 :: brest) with _ | ⟨p0, prest⟩
      · exact absurd hp (pushLast_ne_nil k (b1 :: brest))
      · rw [hp] at hj hd hl hn
        refine ⟨?_, ?_, ?_, ?_⟩
        · rw [List.flatten_cons, hj, List.flatten_cons]
          simp
        · rw [List.dropLast_cons₂, hd]
          rfl
        · show lastD (p0 :: prest) = lastD (b1 :: brest) ++ [k]
          exact hl
        · simpa using hn

/-- Shape of the batch list after processing a key sequence `ks`: the
concatenation is `ks`; there are `ks.length / 49 + 1` batches when `ks` is
non-empty (none when it is empty); every batch except the last holds exactly
49 keys; and the last batch holds the final `ks.length % 49` keys. -/
theorem mkBatches_spec : ∀ ks : List JStr,
    (mkBatches ks).flatten = ks ∧
    (mkBatches ks).length = (if ks.length = 0 then 0 else ks.length / 49 + 1) ∧
    (∀ b ∈ (mkBatches ks).dropLast, b.length = 49) ∧
    lastD (mkBatches ks) = ks.drop (49 * (ks.length / 49)) := by
  intro ks
  induction ks using List.reverseRecOn with
  | nil => exact ⟨rfl, rfl, fun b hb => absurd hb (List.not_mem_nil b), rfl⟩
  | append_singleton ks k ih =>
    obtain ⟨ihj, ihn, ihd, ihl⟩ := ih
    have hstep : mkBatches (ks ++ [k]) = batchStep (mkBatches ks) k := by
      rw [mkBatches, mkBatches, List.foldl_append]
      rfl
    by_cases hkne : ks = []
    · subst hkne
      simp only [List.nil_append]
      have h1 : mkBatches [k] = [[k]] := rfl
      rw [h1]
      refine ⟨by simp, by norm_num, ?_, by norm_num [lastD]⟩
      intro b hb
      exact absurd hb (List.not_mem_nil b)
    · have hKpos : ks.length ≠ 0 := by
        simpa using hkne
      rw [if_neg hKpos] at ihn
      have hBne : mkBatches ks ≠ [] := by
        intro hh
        rw [hh] at ihn
        simp at ihn
      obtain ⟨pj, pd, pl, pn⟩ := pushLast_spec (mkBatches ks) k hBne
      have hlastlen : (lastD (mkBatches ks)).length = ks.length % 49 := by
        rw [ihl, List.length_drop]
        omega
      have hKk : (ks ++ [k]).length = ks.length + 1 := by simp
      rw [hstep, batchStep]
      by_cases hfull : 49 ≤ (lastD (pushLast k (mkBatches ks))).length
      · rw [if_pos hfull]
        rw [pl, List.length_append, hlastlen] at hfull
        have hmod : ks.length % 49 = 48 := by
          simp only [List.length_cons, List.length_nil] at hfull
          omega
        refine ⟨?_, ?_, ?_, ?_⟩
        · rw [List.flatten_append, pj, ihj]
          simp
        · rw [List.length_append, pn, ihn, hKk]
          rw [if_neg (by omega)]
          simp only [List.length_cons, List.length_nil]
          omega
        · rw [List.dropLast_concat]
          intro b hb
          rw [dropLast_eq_self_append (pushLast k (mkBatches ks)) (pushLast_ne_nil k _)] at hb
          rw [List.mem_append] at hb
          rcases hb with hb | hb
          · rw [pd] at hb
            exact ihd b hb
          · obtain rfl : b = lastD (pushLast k (mkBatches ks)) := by simpa using hb
            rw [pl, List.length_append, hlastlen]
            simp only [List.length_cons, List.length_nil]
            omega
        · rw [lastD_concat, hKk]
          rw [List.drop_eq_nil_of_le (by rw [hKk]; omega)]
      · rw [if_neg hfull]
        rw [pl, List.length_append, hlastlen] at hfull
        have hmod : ks.length % 49 < 48 := by
          simp only [List.length_cons, List.length_nil] at hfull
          omega
        refine ⟨?_, ?_, ?_, ?_⟩
        · rw [pj, ihj]
        · rw [pn, ihn, hKk]
          rw [if_neg (by omega)]
          omega
        · rw [pd]
          exact ihd
        · rw [pl, ihl, hKk]
          have hdiv1 : (ks.length + 1) / 49 = ks.length / 49 := by omega
          rw [hdiv1, List.drop_append_of_le_length (by omega)]

/-!  ## Traversal fuel adequacy  -/

theorem jfuel_pos : ∀ j : Json, 1 ≤ jfuel j := by
  intro j
  cases j <;> simp [jfuel]

theorem jfuelL_mem : ∀ {xs : List Json} {x : Json}, x ∈ xs → jfuel x ≤ jfuelL xs := by
  intro xs
  induction xs with
  | nil => intro x h; simp at h
  | cons y ys ih =>
    intro x h
    have heq : jfuelL (y :: ys) = jfuel y + jfuelL ys := by simp [jfuelL]
    rcases List.mem_cons.mp h with rfl | h
    · omega
    · have := ih h
      omega

theorem jfuelF_mem : ∀ {fs : List (JStr × Json)} {kv : JStr × Json}, kv ∈ fs →
    jfuel kv.2 ≤ jfuelF fs := by
  intro fs
  induction fs with
  | nil => intro kv h; simp at h
  | cons p ps ih =>
    intro kv h
    obtain ⟨pk, pv⟩ := p
    have heq : jfuelF ((pk, pv) :: ps) = jfuel pv + jfuelF ps := by simp [jfuelF]
    rcases List.mem_cons.mp h with rfl | h
    · have hsnd : jfuel ((pk, pv)).2 = jfuel pv := rfl
      omega
    · have := ih h
      omega

theorem jfuel_arr (xs : List Json) : jfuel (Json.arr xs) = 1 + jfuelL xs := by simp [jfuel]

theorem jfuel_obj (fs : List (JStr × Json)) : jfuel (Json.obj fs) = 1 + jfuelF fs := by
  simp [jfuel]

theorem travF_null (tp : Bool) (act : Act) (n : Nat) (s : St) :
    travF tp act (n+1) s .null = .ok (s, .null) := rfl

theorem travF_bool (tp : Bool) (act : Act) (n : Nat) (s : St) (b : Bool) :
    travF tp act (n+1) s (.bool b) = .ok (s, .bool b) := rfl

theorem travF_num (tp : Bool) (act : Act) (n : Nat) (s : St) (q : Int) :
    travF tp act (n+1) s (.num q) = .ok (s, .num q) := rfl

theorem travF_str (tp : Bool) (act : Act) (n : Nat) (s : St) (t : JStr) :
    travF tp act (n+1) s (.str t) =
      match act s t with
      | .error e => .error e
      | .ok p => .ok (p.1, .str p.2) := rfl

theorem travF_arr (tp : Bool) (act : Act) (n : Nat) (s : St) (xs : List Json) :
    travF tp act (n+1) s (.arr xs) =
      match travListT (travF tp act n) s xs with
      | .error e => .error e
      | .ok p => .ok (p.1, .arr p.2) := rfl

theorem travF_obj (tp : Bool) (act : Act) (n : Nat) (s : St) (fs : List (JStr × Json)) :
    travF tp act (n+1) s (.obj fs) =
      match travFieldsT tp (travF tp act n) s [] fs with
      | .error e => .error e
      | .ok p => .ok (p.1, .obj p.2) := rfl

theorem travListT_congr {rec1 rec2 : St → Json → Except JStr (St × Json)} :
    ∀ (xs : List Json), (∀ x ∈ xs, ∀ s, rec1 s x = rec2 s x) →
    ∀ s, travListT rec1 s xs = travListT rec2 s xs := by
  intro xs
  induction xs with
  | nil => intro _ s; rfl
  | cons x xs ih =>
    intro h s
    rw [travListT, travListT, h x (by simp) s]
    cases rec2 s x with
    | error e => rfl
    | ok p =>
      obtain ⟨s', y⟩ := p
      simp only []
      rw [ih (fun z hz s₂ => h z (by simp [hz]) s₂) s']

theorem travFieldsT_congr {tp : Bool} {rec1 rec2 : St → Json → Except JStr (St × Json)} :
    ∀ (fs : List (JStr × Json)), (∀ kv ∈ fs, ∀ s, rec1 s kv.2 = rec2 s kv.2) →
    ∀ s acc, travFieldsT tp rec1 s acc fs = travFieldsT tp rec2 s acc fs := by
  intro fs
  induction fs with
  | nil => intro _ s acc; rfl
  | cons p fs ih =>
    intro h s acc
    obtain ⟨k, v⟩ := p
    rw [travFieldsT, travFieldsT]
    cases (if tp then translate s k else .ok k) with
    | error e => rfl
    | ok k' =>
      simp only []
      rw [h (k, v) (by simp) s]
      cases rec2 s v with
      | error e => rfl
      | ok q =>
        obtain ⟨s', v'⟩ := q
        simp only []
        rw [ih (fun z hz s₂ => h z (by simp [hz]) s₂) s' (aset acc k' v')]

theorem travF_irrel : ∀ n m (tp : Bool) (act : Act) (s : St) (j : Json),
    jfuel j ≤ n → jfuel j ≤ m → travF tp act n s j = travF tp act m s j := by
  intro n
  induction n with
  | zero =>
    intro m tp act s j h _
    have := jfuel_pos j
    omega
  | succ n ih =>
    intro m tp act s j hn hm
    have hj1 := jfuel_pos j
    cases m with
    | zero => omega
    | succ m =>
      cases j with
      | null => rfl
      | bool b => rfl
      | num q => rfl
      | str t => rfl
      | arr xs =>
        rw [travF_arr, travF_arr]
        have hxs : jfuelL xs ≤ n := by
          have := jfuel_arr xs
          omega
        have hxs' : jfuelL xs ≤ m := by
          have := jfuel_arr xs
          omega
        rw [travListT_congr xs
          (fun x hx s₂ => ih m tp act s₂ x (le_trans (jfuelL_mem hx) hxs)
            (le_trans (jfuelL_mem hx) hxs')) s]
      | obj fs =>
        rw [travF_obj, travF_obj]
        have hfs : jfuelF fs ≤ n := by
          have := jfuel_obj fs
          omega
        have hfs' : jfuelF fs ≤ m := by
          have := jfuel_obj fs
          omega
        rw [travFieldsT_congr fs
          (fun kv hkv s₂ => ih m tp act s₂ kv.2 (le_trans (jfuelF_mem hkv) hfs)
            (le_trans (jfuelF_mem hkv) hfs')) s []]

theorem traverseJSON_eq_travF (tp : Bool) (act : Act) (s : St) (j : Json) {n : Nat}
    (h : jfuel j ≤ n) : traverseJSON tp act s j = travF tp act n s j :=
  travF_irrel (jfuel j) n tp act s j (le_refl _) h

/-!  ## The identity walk  -/

theorem travListT_ident {rec : St → Json → Except JStr (St × Json)} :
    ∀ (xs : List Json), (∀ x ∈ xs, ∀ s, rec s x = .ok (s, x)) →
    ∀ s, travListT rec s xs = .ok (s, xs) := by
  intro xs
  induction xs with
  | nil => intro _ s; rfl
  | cons x xs ih =>
    intro h s
    rw [travListT, h x (by simp) s]
    simp only []
    rw [ih (fun z hz s₂ => h z (by simp [hz]) s₂) s]

theorem aset_append {α : Type} : ∀ (acc : List (JStr × α)) (k : JStr) (v : α),
    (∀ p ∈ acc, p.1 ≠ k) → aset acc k v = acc ++ [(k, v)] := by
  intro acc
  induction acc with
  | nil => intro k v _; rfl
  | cons p acc ih =>
    intro k v h
    obtain ⟨pk, pv⟩ := p
    rw [aset, if_neg (h (pk, pv) (by simp))]
    rw [ih k v (fun q hq => h q (by simp [hq]))]
    rfl

theorem travFieldsT_ident {rec : St → Json → Except JStr (St × Json)} :
    ∀ (fs acc : List (JStr × Json)),
    (∀ kv ∈ fs, ∀ s, rec s kv.2 = .ok (s, kv.2)) →
    (∀ p ∈ acc, ∀ q ∈ fs, p.1 ≠ q.1) →
    (fs.map Prod.fst).Nodup →
    ∀ s, travFieldsT false rec s acc fs = .ok (s, acc ++ fs) := by
  intro fs
  induction fs with
  | nil => intro acc _ _ _ s; simp [travFieldsT]
  | cons p fs ih =>
    intro acc h hdisj hnodup s
    obtain ⟨k, v⟩ := p
    have hv : rec s v = .ok (s, v) := h (k, v) (by simp) s
    rw [travFieldsT, hv]
    show travFieldsT false rec s (aset acc k v) fs = .ok (s, acc ++ (k, v) :: fs)
    have hset : aset acc k v = acc ++ [(k, v)] :=
      aset_append acc k v (fun q hq => hdisj q hq (k, v) (by simp))
    rw [hset]
    have hnodup' : (fs.map Prod.fst).Nodup := by
      simp only [List.map_cons, List.nodup_cons] at hnodup
      exact hnodup.2
    have hknotin : k ∉ fs.map Prod.fst := by
      simp only [List.map_cons, List.nodup_cons] at hnodup
      exact hnodup.1
    have hdisj' : ∀ p ∈ acc ++ [(k, v)], ∀ q ∈ fs, p.1 ≠ q.1 := by
      intro p hp q hq
      rw [List.mem_append] at hp
      rcases hp with hp | hp
      · exact hdisj p hp q (by simp [hq])
      · obtain rfl : p = (k, v) := by simpa using hp
        intro hc
        have hc' : k = q.1 := hc
        exact hknotin (by rw [hc']; exact List.mem_map_of_mem Prod.fst hq)
    rw [ih (acc ++ [(k, v)]) (fun z hz s₂ => h z (by simp [hz]) s₂) hdisj' hnodup' s]
    simp

theorem travF_ident : ∀ n (s : St) (j : Json), jfuel j ≤ n → JWF j →
    travF false idAct n s j = .ok (s, j) := by
  intro n
  induction n with
  | zero =>
    intro s j h _
    have := jfuel_pos j
    omega
  | succ n ih =>
    intro s j hn hwf
    cases hwf with
    | null => rfl
    | bool b => rfl
    | num q => rfl
    | str t => rfl
    | arr xs hxs =>
      rw [travF_arr]
      have hfuel : jfuelL xs ≤ n := by
        have := jfuel_arr xs
        omega
      rw [travListT_ident xs
        (fun x hx s₂ => ih s₂ x (le_trans (jfuelL_mem hx) hfuel) (hxs x hx))]
    | obj fs hnodup hvals =>
      rw [travF_obj]
      have hfuel : jfuelF fs ≤ n := by
        have := jfuel_obj fs
        omega
      rw [travFieldsT_ident fs []
        (fun kv hkv s₂ => ih s₂ kv.2 (le_trans (jfuelF_mem hkv) hfuel) (hvals kv hkv))
        (fun p hp => absurd hp (List.not_mem_nil p)) hnodup]
      show Except.ok (s, Json.obj ([] ++ fs)) = Except.ok (s, Json.obj fs)
      rw [List.nil_append]

/-!  ## Association-list maps and batch resolution  -/

theorem alookup_aset_self {α : Type} : ∀ (c : List (JStr × α)) (k : JStr) (v : α),
    alookup (aset c k v) k = some v := by
  intro c
  induction c with
  | nil => intro k v; simp [aset, alookup]
  | cons p c ih =>
    intro k v
    obtain ⟨pk, pv⟩ := p
    by_cases h : pk = k
    · simp [aset, alookup, h]
    · simp [aset, alookup, h, ih]

theorem alookup_aset_other {α : Type} : ∀ (c : List (JStr × α)) (k k' : JStr) (v : α),
    k' ≠ k → alookup (aset c k' v) k = alookup c k := by
  intro c
  induction c with
  | nil =>
    intro k k' v h
    simp [aset, alookup, h]
  | cons p c ih =>
    intro k k' v h
    obtain ⟨pk, pv⟩ := p
    by_cases hpk : pk = k'
    · subst hpk
      simp [aset, alookup, h]
    · by_cases hk : pk = k
      · have hkk : ¬ k = k' := fun hc => h hc.symm
        simp [aset, alookup, hpk, hk, hkk]
      · simp [aset, alookup, hpk, hk, ih k k' v h]

theorem resolveBatchAux_preserve (batch : List JStr) (k : JStr) :
    ∀ (response : List JStr) (i : Nat) (cache : List (JStr × JStr)),
    (∀ j, i ≤ j → j < i + response.length → batch.getD j undefinedLit ≠ k) →
    alookup (resolveBatchAux cache batch i response) k = alookup cache k := by
  intro response
  induction response with
  | nil => intro i cache _; rfl
  | cons res rest ih =>
    intro i cache h
    rw [resolveBatchAux]
    rw [ih (i + 1) _ (fun j h1 h2 => h j (by omega) (by simp at h2 ⊢; omega))]
    exact alookup_aset_other cache k (batch.getD i undefinedLit) res
      (h i (le_refl i) (by simp))

theorem resolveBatchAux_get (batch : List JStr) (hnodup : batch.Nodup) :
    ∀ (response : List JStr) (i : Nat) (cache : List (JStr × JStr)),
    i + response.length ≤ batch.length →
    ∀ (j : Nat) (hj1 : i ≤ j) (hj2 : j < i + response.length),
    alookup (resolveBatchAux cache batch i response) (batch.getD j undefinedLit) =
      some (response.getD (j - i) undefinedLit) := by
  intro response
  induction response with
  | nil => intro i cache _ j hj1 hj2; simp at hj2; omega
  | cons res rest ih =>
    intro i cache hlen j hj1 hj2
    rw [resolveBatchAux]
    by_cases hji : j = i
    · subst hji
      rw [resolveBatchAux_preserve batch _ rest (j + 1) _ ?hpres]
      · rw [alookup_aset_self]
        simp
      case hpres =>
        intro j2 hj2a hj2b
        intro hc
        have hjlt : j < batch.length := by simp at hlen; omega
        have hj2lt : j2 < batch.length := by simp at hj2b hlen; omega
        rw [List.getD_eq_getElem _ _ hj2lt, List.getD_eq_getElem _ _ hjlt] at hc
        have := List.Nodup.getElem_inj_iff hnodup |>.mp hc
        omega
    · have hres : res :: rest ≠ [] := by simp
      rw [ih (i + 1) _ (by simp at hlen; omega) j (by omega) (by simp at hj2; omega)]
      congr 1
      have : j - i = (j - (i + 1)) + 1 := by omega
      rw [this]
      simp

theorem errType_ne (key : JStr) : errType ≠ errNotFound key := by
  intro h
  have hl := congrArg List.length h
  rw [errType, errNotFound, List.length_append] at hl
  have h1 : ("TypeError: Cannot read properties of undefined".toList).length = 46 := by decide
  have h2 : ("Entry not found in cache, should never happen: ".toList).length = 47 := by decide
  omega

theorem count_flatten (k : JStr) : ∀ L : List (List JStr),
    (L.map (fun b => b.count k)).sum = L.flatten.count k := by
  intro L
  induction L with
  | nil => rfl
  | cons b L ih =>
    rw [List.map_cons, List.sum_cons, List.flatten_cons, List.count_append, ih]

/-!  ## Unfolding the leaf actions  -/

theorem normalize_key_no_match {t : JStr} (h : (splitPH t).2 = []) : (normalize t).1 = t := by
  rw [normalize_no_match h]

theorem normalize_key_match {t : JStr} (h : (splitPH t).2 ≠ []) :
    (normalize t).1 = buildKey (splitPH t).1 0 := by
  rw [normalize_match h]

theorem addEntry_run {t : JStr} (ht : t ≠ []) (s : St)
    (hfalsy : jsTruthy (alookup s.cache (normalize t).1) = false) :
    addEntry s t = (⟨aset s.cache (normalize t).1 [],
                    s.totalChars + (normalize t).1.length,
                    if (splitPH t).2 = [] then s.placeholderMap
                    else aset s.placeholderMap (normalize t).1 (splitPH t).2⟩, t) := by
  by_cases hph : (splitPH t).2 = []
  · rw [normalize_key_no_match hph] at hfalsy ⊢
    rw [if_pos hph]
    rw [addEntry, if_neg ht]
    simp only [hph, if_pos]
    rw [if_neg (by rw [hfalsy]; simp)]
  · rw [normalize_key_match hph] at hfalsy ⊢
    rw [if_neg hph]
    rw [addEntry, if_neg ht]
    simp only [hph, if_neg, if_false]
    rw [if_neg (by rw [hfalsy]; simp)]

theorem addEntry_skip {t : JStr} (ht : t ≠ []) (s : St)
    (htruthy : jsTruthy (alookup s.cache (normalize t).1) = true) :
    addEntry s t = (s, t) := by
  by_cases hph : (splitPH t).2 = []
  · rw [normalize_key_no_match hph] at htruthy
    rw [addEntry, if_neg ht]
    simp only [hph, if_pos]
    rw [if_pos (by rw [htruthy])]
  · rw [normalize_key_match hph] at htruthy
    rw [addEntry, if_neg ht]
    simp only [hph, if_neg, if_false]
    rw [if_pos (by rw [htruthy])]

theorem translate_missing {t : JStr} (ht : t ≠ []) (s : St)
    (habs : alookup s.cache (normalize t).1 = none) :
    translate s t = .error (errNotFound (normalize t).1) := by
  by_cases hph : (splitPH t).2 = []
  · rw [normalize_key_no_match hph] at habs ⊢
    rw [translate, if_neg ht]
    simp only [hph, if_pos]
    rw [habs]
  · rw [normalize_key_match hph] at habs ⊢
    rw [translate, if_neg ht]
    simp only [hph, if_neg, if_false]
    rw [habs]

theorem translate_found_no_ph {t tr : JStr} (ht : t ≠ []) (s : St)
    (hph : (splitPH t).2 = [])
    (hcache : alookup s.cache t = some tr) :
    translate s t = .ok tr := by
  rw [translate, if_neg ht]
  simp only [hph, if_pos]
  rw [hcache]

theorem translate_found_ph {t tr : JStr} {stored : List JStr} (ht : t ≠ []) (s : St)
    (hph : (splitPH t).2 ≠ [])
    (hcache : alookup s.cache (buildKey (splitPH t).1 0) = some tr)
    (hmap : alookup s.placeholderMap (buildKey (splitPH t).1 0) = some stored) :
    translate s t = .ok (buildRestore (splitMk tr) stored 0) := by
  rw [translate, if_neg ht]
  simp only [hph, if_neg, if_false]
  rw [hcache]
  simp only [hph, if_neg, if_false]
  rw [hmap]

/-!  ## Claims  -/

/-- C1 (amended): for every ordered key sequence, the batching loop of `main`
produces batches whose concatenation is the original sequence, each of size at
most 49, all non-empty except possibly the last; it produces
`ks.length / 49 + 1` batches for non-empty input (not `ceil(K/49)`): exactly
when the key count is a positive multiple of 49 the final batch is empty, one
more batch than the claimed `ceil(K/M)`.  Every key occurs in the batches
exactly as often as in the input. -/
theorem C1_batch_partition (ks : List JStr) :
    (mkBatches ks).flatten = ks ∧
    (∀ b ∈ mkBatches ks, b.length ≤ 49) ∧
    (∀ b ∈ (mkBatches ks).dropLast, b ≠ []) ∧
    (mkBatches ks).length = (if ks.length = 0 then 0 else ks.length / 49 + 1) ∧
    (ks ≠ [] → (lastD (mkBatches ks) = [] ↔ ks.length % 49 = 0)) ∧
    (∀ k : JStr, ((mkBatches ks).map (fun b => b.count k)).sum = ks.count k) := by
  obtain ⟨hj, hn, hd, hl⟩ := mkBatches_spec ks
  refine ⟨hj, ?_, ?_, hn, ?_, ?_⟩
  · intro b hb
    by_cases hB : mkBatches ks = []
    · rw [hB] at hb
      exact absurd hb (List.not_mem_nil b)
    · rw [dropLast_eq_self_append (mkBatches ks) hB, List.mem_append] at hb
      rcases hb with hb | hb
      · rw [hd b hb]
      · obtain rfl : b = lastD (mkBatches ks) := by simpa using hb
        rw [hl, List.length_drop]
        omega
  · intro b hb hbnil
    have := hd b hb
    rw [hbnil] at this
    simp at this
  · intro hks
    have hKpos : ks.length ≠ 0 := by simpa using hks
    rw [hl]
    constructor
    · intro h
      have hlen := congrArg List.length h
      rw [List.length_drop] at hlen
      simp only [List.length_nil] at hlen
      omega
    · intro h
      exact List.drop_eq_nil_of_le (by omega)
  · intro k
    have := count_flatten k (mkBatches ks)
    rw [hj] at this
    exact this

set_option maxRecDepth 8000 in
/-- C1 counterexample: 49 distinct keys produce 2 batches, one of them empty,
while the claim predicts `ceil(49/49) = 1` non-empty batch. -/
theorem C1_batch_partition_counterexample :
    (mkBatches ((List.range 49).map natDigits)).length = 2 ∧
    [] ∈ mkBatches ((List.range 49).map natDigits) ∧
    (((List.range 49).map natDigits).length + 48) / 49 = 1 := by
  refine ⟨by decide, by decide, by decide⟩

/-- C1 witness: instance of the amended theorem at a one-key list. -/
theorem C1_batch_partition_witness :
    ["ab".toList] ≠ ([] : List JStr) ∧
    (lastD (mkBatches ["ab".toList]) = [] ↔ ["ab".toList].length % 49 = 0) :=
  ⟨by decide, (C1_batch_partition ["ab".toList]).2.2.2.2.1 (by decide)⟩

/-- C2 (code bug): with key translation enabled, `traverseJSON` passes object
keys to the global `translate` function instead of the supplied leaf action,
so the collection pass (action `addEntry`) looks the key up in the still-empty
cache and throws the "should never happen" cache-miss error on the input
`{"a": "b"}` instead of recording the key. -/
theorem C2_key_translate_bug :
    traverseJSON true addEntryAct St0 (Json.obj [("a".toList, Json.str "b".toList)]) =
      .error (errNotFound "a".toList) := by rfl

/-- C3 counterexample: for the text `<t0/>{{a}}`, which contains a literal
marker-shaped substring, the round trip returns `{{a}}undefined` instead of
the original text. -/
theorem C3_placeholder_roundtrip_counterexample :
    denormalize (normalize "<t0/>\x7b\x7ba\x7d\x7d".toList).1
        (normalize "<t0/>\x7b\x7ba\x7d\x7d".toList).2 =
      "\x7b\x7ba\x7d\x7dundefined".toList ∧
    "\x7b\x7ba\x7d\x7dundefined".toList ≠ "<t0/>\x7b\x7ba\x7d\x7d".toList := by
  exact ⟨by decide, by decide⟩

/-- C3 (amended): for every text containing no substring that matches the
marker pattern, denormalizing the normalized key with the recorded
placeholder list reproduces the original text exactly. -/
theorem C3_placeholder_roundtrip (t : JStr) (h : containsMarker t = false) :
    denormalize (normalize t).1 (normalize t).2 = t :=
  denormalize_normalize h

/-- C3 witness: the round trip at the concrete text `Hello {{name}}!`. -/
theorem C3_placeholder_roundtrip_witness :
    containsMarker "Hello \x7b\x7bname\x7d\x7d!".toList = false ∧
    denormalize (normalize "Hello \x7b\x7bname\x7d\x7d!".toList).1
        (normalize "Hello \x7b\x7bname\x7d\x7d!".toList).2 =
      "Hello \x7b\x7bname\x7d\x7d!".toList :=
  ⟨by decide, C3_placeholder_roundtrip _ (by decide)⟩

/-- C5 counterexample: a resolved translation carrying two markers against a
stored list of one placeholder is not detected: `translate` silently returns
the placeholder followed by the literal string "undefined". -/
theorem C5_marker_mismatch_counterexample :
    translate ⟨[("x<t0/>".toList, "<t0/><t1/>".toList)], 0,
               [("x<t0/>".toList, ["\x7b\x7ba\x7d\x7d".toList])]⟩ "x\x7b\x7ba\x7d\x7d".toList =
      .ok "\x7b\x7ba\x7d\x7dundefined".toList ∧
    (splitMk "<t0/><t1/>".toList).length = 3 ∧
    (["\x7b\x7ba\x7d\x7d".toList] : List JStr).length = 1 := by
  exact ⟨by rfl, by decide, by decide⟩

/-- C5 (amended): denormalization performs no count check at all: whenever
the key and its stored placeholder list are present, `translate` succeeds
with the positional restoration, replacing markers beyond the stored count
with the literal string "undefined" and ignoring excess stored placeholders;
no data-integrity error is surfaced. -/
theorem C5_marker_mismatch (s : St) (t tr : JStr) (stored : List JStr) (ht : t ≠ [])
    (hph : (splitPH t).2 ≠ [])
    (hcache : alookup s.cache (normalize t).1 = some tr)
    (hmap : alookup s.placeholderMap (normalize t).1 = some stored) :
    translate s t = .ok (buildRestore (splitMk tr) stored 0) := by
  rw [normalize_key_match hph] at hcache hmap
  exact translate_found_ph ht s hph hcache hmap

/-- C5 witness: the amended theorem at a three-marker translation with a
single stored placeholder. -/
theorem C5_marker_mismatch_witness :
    ("y\x7b\x7bq\x7d\x7d".toList ≠ ([] : JStr)) ∧
    ((splitPH "y\x7b\x7bq\x7d\x7d".toList).2 ≠ []) ∧
    alookup ([("y<t0/>".toList, "<t0/><t1/><t2/>".toList)] : List (JStr × JStr))
      (normalize "y\x7b\x7bq\x7d\x7d".toList).1 = some "<t0/><t1/><t2/>".toList ∧
    translate ⟨[("y<t0/>".toList, "<t0/><t1/><t2/>".toList)], 0,
               [("y<t0/>".toList, ["\x7b\x7bq\x7d\x7d".toList])]⟩ "y\x7b\x7bq\x7d\x7d".toList =
      .ok (buildRestore (splitMk "<t0/><t1/><t2/>".toList) ["\x7b\x7bq\x7d\x7d".toList] 0) :=
  ⟨by decide, by decide, by decide,
   C5_marker_mismatch _ _ _ _ (by decide) (by decide) (by decide) (by decide)⟩

/-- C6 counterexample: a response shorter than the batch completes normally
and leaves the unmatched key unresolved, and a response longer than the batch
writes the extra item under the key "undefined"; no length check exists and
no error is raised. -/
theorem C6_positional_resolution_counterexample :
    resolveBatch [("a".toList, []), ("b".toList, [])] ["a".toList, "b".toList] ["x".toList] =
      [("a".toList, "x".toList), ("b".toList, [])] ∧
    resolveBatch [("a".toList, [])] ["a".toList] ["x".toList, "y".toList] =
      [("a".toList, "x".toList), ("undefined".toList, "y".toList)] := by
  exact ⟨by decide, by decide⟩

/-- C6 (amended): when the provider respects the contract (response length
equals batch length) and the batch keys are distinct, response item `j`
resolves request item `j` positionally. -/
theorem C6_positional_resolution (cache : List (JStr × JStr)) (batch response : List JStr)
    (hnodup : batch.Nodup) (hlen : response.length = batch.length) :
    ∀ j, j < batch.length →
      alookup (resolveBatch cache batch response) (batch.getD j undefinedLit) =
        some (response.getD j undefinedLit) := by
  intro j hj
  have := resolveBatchAux_get batch hnodup response 0 cache (by omega) j (by omega) (by omega)
  simpa using this

/-- C6 witness: positional resolution at a two-key batch. -/
theorem C6_positional_resolution_witness :
    (["a".toList, "b".toList] : List JStr).Nodup ∧
    (["x".toList, "y".toList] : List JStr).length = (["a".toList, "b".toList] : List JStr).length ∧
    (1 : Nat) < (["a".toList, "b".toList] : List JStr).length ∧
    alookup (resolveBatch [] ["a".toList, "b".toList] ["x".toList, "y".toList])
        ((["a".toList, "b".toList] : List JStr).getD 1 undefinedLit) =
      some ((["x".toList, "y".toList] : List JStr).getD 1 undefinedLit) :=
  ⟨by decide, by decide, by decide,
   C6_positional_resolution [] _ _ (by decide) (by decide) 1 (by decide)⟩

/-- C7 counterexample: a key inserted during collection but not yet resolved
(cache value the empty string) does not fail the lookup: `translate` silently
returns the empty string instead of raising an error. -/
theorem C7_missing_entry_counterexample :
    translate ⟨[("hello".toList, [])], 0, []⟩ "hello".toList = .ok [] := by rfl

/-- C7 (amended): the substitution action fails with the missing-cache-entry
error exactly when the normalized key is absent from the cache; a key that
was inserted but whose batch is not yet resolved (empty-string value) is not
an error: it silently yields the empty string. -/
theorem C7_missing_entry (s : St) (t : JStr) (ht : t ≠ []) :
    (alookup s.cache (normalize t).1 = none ↔
      translate s t = .error (errNotFound (normalize t).1)) ∧
    (alookup s.cache (normalize t).1 = some [] → translate s t = .ok []) := by
  constructor
  · constructor
    · exact translate_missing ht s
    · intro h
      cases hc : alookup s.cache (normalize t).1 with
      | none => rfl
      | some tr =>
        exfalso
        by_cases hph : (splitPH t).2 = []
        · rw [translate_found_no_ph ht s hph
            (by rw [← normalize_key_no_match hph]; exact hc)] at h
          simp at h
        · rw [normalize_key_match hph] at hc
          cases hm : alookup s.placeholderMap (buildKey (splitPH t).1 0) with
          | some stored =>
            rw [translate_found_ph ht s hph hc hm] at h
            simp at h
          | none =>
            have hT : translate s t = if containsMarker tr then .error errType else .ok tr := by
              rw [translate, if_neg ht]
              simp only [hph, if_neg, if_false]
              rw [hc]
              simp only [hph, if_neg, if_false]
              rw [hm]
            rw [hT] at h
            by_cases hcm : containsMarker tr
            · rw [if_pos hcm] at h
              injection h with h
              exact (errType_ne _) h
            · rw [if_neg hcm] at h
              simp at h
  · intro h
    by_cases hph : (splitPH t).2 = []
    · exact translate_found_no_ph ht s hph (by rw [← normalize_key_no_match hph]; exact h)
    · rw [normalize_key_match hph] at h
      cases hm : alookup s.placeholderMap (buildKey (splitPH t).1 0) with
      | some stored =>
        rw [translate_found_ph ht s hph h hm, splitMk_nil]
        rfl
      | none =>
        have hT : translate s t = if containsMarker [] then .error errType else .ok [] := by
          rw [translate, if_neg ht]
          simp only [hph, if_neg, if_false]
          rw [h]
          simp only [hph, if_neg, if_false]
          rw [hm]
        rw [hT]
        rfl

/-- C7 witness: the amended theorem at a resolved single-entry cache. -/
theorem C7_missing_entry_witness :
    ("q".toList ≠ ([] : JStr)) ∧
    ((alookup ([("q".toList, "r".toList)] : List (JStr × JStr))
        (normalize "q".toList).1 = none ↔
      translate ⟨[("q".toList, "r".toList)], 0, []⟩ "q".toList =
        .error (errNotFound (normalize "q".toList).1)) ∧
     (alookup ([("q".toList, "r".toList)] : List (JStr × JStr))
        (normalize "q".toList).1 = some [] →
      translate ⟨[("q".toList, "r".toList)], 0, []⟩ "q".toList = .ok [])) :=
  ⟨by decide, C7_missing_entry ⟨[("q".toList, "r".toList)], 0, []⟩ "q".toList (by decide)⟩

/-!  ## Collection and substitution over duplicated leaves  -/

theorem addEntry_snd (s : St) (t : JStr) : (addEntry s t).2 = t := by
  rw [addEntry]
  by_cases ht : t = []
  · rw [if_pos ht, ht]
  · rw [if_neg ht]
    by_cases hph : (splitPH t).2 = []
    · simp only [hph, if_pos]
    · simp only [hph, if_neg, if_false]

theorem travF_addEntry_str (N : Nat) (s : St) (t : JStr) :
    travF false addEntryAct (N+1) s (Json.str t) = .ok ((addEntry s t).1, Json.str t) := by
  rw [travF_str]
  show Except.ok ((addEntry s t).1, Json.str (addEntry s t).2) =
    Except.ok ((addEntry s t).1, Json.str t)
  rw [addEntry_snd]

theorem travF_translate_str (N : Nat) (s : St) (t : JStr) :
    travF false translateAct (N+1) s (Json.str t) =
      match translate s t with
      | .error e => Except.error e
      | .ok r => Except.ok (s, Json.str r) := by
  rw [travF_str]
  have hact : translateAct s t = (translate s t).map (fun r => (s, r)) := rfl
  rw [hact]
  cases translate s t with
  | error e => rfl
  | ok r => rfl

theorem jfuelL_replicate_str (t : JStr) : ∀ m : Nat,
    jfuelL (List.replicate m (Json.str t)) = m := by
  intro m
  induction m with
  | zero => rfl
  | succ m ih =>
    rw [List.replicate_succ]
    have : jfuelL (Json.str t :: List.replicate m (Json.str t)) =
        jfuel (Json.str t) + jfuelL (List.replicate m (Json.str t)) := by simp [jfuelL]
    rw [this, ih]
    simp only [jfuel]
    omega

theorem addEntry_dup_state (t : JStr) (ht : t ≠ []) (c : Nat) :
    addEntry ⟨[((normalize t).1, [])], c,
        if (splitPH t).2 = [] then [] else [((normalize t).1, (splitPH t).2)]⟩ t =
      (⟨[((normalize t).1, [])], c + (normalize t).1.length,
        if (splitPH t).2 = [] then [] else [((normalize t).1, (splitPH t).2)]⟩, t) := by
  rw [addEntry_run ht _ (by simp [alookup, jsTruthy])]
  by_cases hph : (splitPH t).2 = []
  · simp [hph, aset]
  · simp [hph, aset]

theorem collect_replicate_aux (t : JStr) (ht : t ≠ [])
    {rec : St → Json → Except JStr (St × Json)}
    (hrec : ∀ s : St, rec s (Json.str t) = .ok ((addEntry s t).1, Json.str t)) :
    ∀ (m : Nat) (c : Nat),
    travListT rec ⟨[((normalize t).1, [])], c,
        if (splitPH t).2 = [] then [] else [((normalize t).1, (splitPH t).2)]⟩
      (List.replicate m (Json.str t)) =
    .ok (⟨[((normalize t).1, [])], c + m * (normalize t).1.length,
        if (splitPH t).2 = [] then [] else [((normalize t).1, (splitPH t).2)]⟩,
      List.replicate m (Json.str t)) := by
  intro m
  induction m with
  | zero =>
    intro c
    simp [travListT]
  | succ m ih =>
    intro c
    rw [List.replicate_succ, travListT, hrec, addEntry_dup_state t ht c]
    simp only []
    rw [ih (c + (normalize t).1.length)]
    have harith : c + (normalize t).1.length + m * (normalize t).1.length =
        c + (m + 1) * (normalize t).1.length := by ring
    rw [harith]

theorem subst_replicate {rec : St → Json → Except JStr (St × Json)} (s : St) (t out : JStr)
    (hrec : rec s (Json.str t) = .ok (s, Json.str out)) :
    ∀ m, travListT rec s (List.replicate m (Json.str t)) =
      .ok (s, List.replicate m (Json.str out)) := by
  intro m
  induction m with
  | zero => rfl
  | succ m ih =>
    rw [List.replicate_succ, travListT, hrec]
    simp only []
    rw [ih, List.replicate_succ]

/-- C4 (amended): a tree holding the same non-empty string at `n+1` leaves
produces exactly one cache entry under the normalized key, with one stored
placeholder list, and that single key forms a single batch; but the running
character total accumulates the key length once per occurrence (re-insertion
of a key whose entry is still the falsy empty string repeats the accounting),
so it ends at `(n+1) * key.length`, not `key.length`.  During substitution
every one of the `n+1` locations receives the same translated text. -/
theorem C4_deduplication (t : JStr) (n : Nat) (ht : t ≠ []) :
    (traverseJSON false addEntryAct St0 (Json.arr (List.replicate (n+1) (Json.str t))) =
      .ok (⟨[((normalize t).1, [])], (n+1) * (normalize t).1.length,
            if (splitPH t).2 = [] then [] else [((normalize t).1, (splitPH t).2)]⟩,
           Json.arr (List.replicate (n+1) (Json.str t)))) ∧
    mkBatches [(normalize t).1] = [[(normalize t).1]] ∧
    (∀ (s : St) (out : JStr), translate s t = .ok out →
      traverseJSON false translateAct s (Json.arr (List.replicate (n+1) (Json.str t))) =
        .ok (s, Json.arr (List.replicate (n+1) (Json.str out)))) := by
  refine ⟨?_, rfl, ?_⟩
  · have hfuel : jfuel (Json.arr (List.replicate (n+1) (Json.str t))) ≤ n + 2 := by
      rw [jfuel_arr, jfuelL_replicate_str]
      omega
    rw [traverseJSON_eq_travF _ _ _ _ hfuel, travF_arr]
    rw [List.replicate_succ, travListT, travF_addEntry_str]
    have hfirst : (addEntry St0 t).1 = ⟨[((normalize t).1, [])], 0 + (normalize t).1.length,
        if (splitPH t).2 = [] then [] else [((normalize t).1, (splitPH t).2)]⟩ := by
      rw [addEntry_run ht St0 (by simp [St0, alookup, jsTruthy])]
      by_cases hph : (splitPH t).2 = []
      · simp [St0, hph, aset]
      · simp [St0, hph, aset]
    simp only []
    rw [hfirst,
      collect_replicate_aux t ht (fun s₂ => travF_addEntry_str n s₂ t) n (0 + (normalize t).1.length)]
    have harith : 0 + (normalize t).1.length + n * (normalize t).1.length =
        (n + 1) * (normalize t).1.length := by ring
    rw [harith]
  · intro s out h
    have hfuel : jfuel (Json.arr (List.replicate (n+1) (Json.str t))) ≤ n + 2 := by
      rw [jfuel_arr, jfuelL_replicate_str]
      omega
    rw [traverseJSON_eq_travF _ _ _ _ hfuel, travF_arr]
    have hrec : travF false translateAct (n+1) s (Json.str t) = .ok (s, Json.str out) := by
      rw [travF_translate_str, h]
    rw [subst_replicate s t out hrec (n+1)]

/-- C4 counterexample: the two-duplicate array `["ab","ab"]` ends collection
with a single cache entry but a running character total of 4, twice the entry
length, because the unresolved entry (empty string) is falsy and re-runs the
accounting. -/
theorem C4_deduplication_counterexample :
    traverseJSON false addEntryAct St0 (Json.arr [Json.str "ab".toList, Json.str "ab".toList]) =
      .ok (⟨[("ab".toList, [])], 4, []⟩, Json.arr [Json.str "ab".toList, Json.str "ab".toList]) ∧
    "ab".toList.length = 2 ∧ (4 : Nat) ≠ 2 := by
  exact ⟨by rfl, by decide, by decide⟩

/-- C4 witness: the substitution conjunct at two duplicates of `"ab"` with a
resolved cache. -/
theorem C4_deduplication_witness :
    ("ab".toList ≠ ([] : JStr)) ∧
    translate ⟨[("ab".toList, "xy".toList)], 0, []⟩ "ab".toList = .ok "xy".toList ∧
    traverseJSON false translateAct ⟨[("ab".toList, "xy".toList)], 0, []⟩
        (Json.arr (List.replicate 2 (Json.str "ab".toList))) =
      .ok (⟨[("ab".toList, "xy".toList)], 0, []⟩,
           Json.arr (List.replicate 2 (Json.str "xy".toList))) :=
  ⟨by decide, by rfl, (C4_deduplication "ab".toList 1 (by decide)).2.2 _ _ (by rfl)⟩

/-- C10 (amended): when two distinct non-empty placeholder-bearing strings
normalize to the same key, the collection pass stores only the placeholder
list of the LAST-discovered string (each re-insertion overwrites the map
entry, because the unresolved cache value is falsy), and the substitution
pass restores that last string's placeholders into every occurrence of the
shared key. -/
theorem C10_placeholder_collision (t1 t2 : JStr) (h1 : t1 ≠ []) (h2 : t2 ≠ [])
    (hp1 : (splitPH t1).2 ≠ []) (hp2 : (splitPH t2).2 ≠ [])
    (hkey : (normalize t2).1 = (normalize t1).1) :
    ((addEntry (addEntry St0 t1).1 t2).1 =
      ⟨[((normalize t1).1, [])], (normalize t1).1.length + (normalize t1).1.length,
       [((normalize t1).1, (splitPH t2).2)]⟩) ∧
    (∀ r : JStr,
      translate ⟨[((normalize t1).1, r)], 0, [((normalize t1).1, (splitPH t2).2)]⟩ t1 =
        .ok (buildRestore (splitMk r) ((splitPH t2).2) 0) ∧
      translate ⟨[((normalize t1).1, r)], 0, [((normalize t1).1, (splitPH t2).2)]⟩ t2 =
        .ok (buildRestore (splitMk r) ((splitPH t2).2) 0)) := by
  constructor
  · have hfirst : (addEntry St0 t1).1 =
        ⟨[((normalize t1).1, [])], (normalize t1).1.length, [((normalize t1).1, (splitPH t1).2)]⟩ := by
      rw [addEntry_run h1 St0 (by simp [St0, alookup, jsTruthy])]
      simp [St0, hp1, aset]
    rw [hfirst]
    rw [addEntry_run h2 _ (by rw [hkey]; simp [alookup, jsTruthy])]
    rw [hkey]
    simp [hp2, aset]
  · intro r
    constructor
    · exact translate_found_ph h1 _ hp1
        (by rw [← normalize_key_match hp1]; simp [alookup])
        (by rw [← normalize_key_match hp1]; simp [alookup])
    · exact translate_found_ph h2 _ hp2
        (by rw [← normalize_key_match hp2, hkey]; simp [alookup])
        (by rw [← normalize_key_match hp2, hkey]; simp [alookup])

/-- C10 counterexample: `"a{{x}}"` and `"a{{y}}"` share the key `a<t0/>`;
after collection the stored placeholder list is `["{{y}}"]` (the later
string's), and substitution of the resolved translation `b<t0/>` gives
`b{{y}}` for the occurrence of `"a{{x}}"` — not `b{{x}}` as the claim of
first-discovery storage predicts. -/
theorem C10_placeholder_collision_counterexample :
    traverseJSON false addEntryAct St0
        (Json.arr [Json.str "a\x7b\x7bx\x7d\x7d".toList, Json.str "a\x7b\x7by\x7d\x7d".toList]) =
      .ok (⟨[("a<t0/>".toList, [])], 12, [("a<t0/>".toList, ["\x7b\x7by\x7d\x7d".toList])]⟩,
           Json.arr [Json.str "a\x7b\x7bx\x7d\x7d".toList, Json.str "a\x7b\x7by\x7d\x7d".toList]) ∧
    translate ⟨[("a<t0/>".toList, "b<t0/>".toList)], 12,
               [("a<t0/>".toList, ["\x7b\x7by\x7d\x7d".toList])]⟩ "a\x7b\x7bx\x7d\x7d".toList =
      .ok "b\x7b\x7by\x7d\x7d".toList ∧
    "b\x7b\x7by\x7d\x7d".toList ≠ "b\x7b\x7bx\x7d\x7d".toList := by
  exact ⟨by rfl, by rfl, by decide⟩

/-- C10 witness: the amended collection conjunct at the two colliding
strings. -/
theorem C10_placeholder_collision_witness :
    ("a\x7b\x7bx\x7d\x7d".toList ≠ ([] : JStr)) ∧
    ((splitPH "a\x7b\x7bx\x7d\x7d".toList).2 ≠ []) ∧
    ((normalize "a\x7b\x7by\x7d\x7d".toList).1 = (normalize "a\x7b\x7bx\x7d\x7d".toList).1) ∧
    (addEntry (addEntry St0 "a\x7b\x7bx\x7d\x7d".toList).1 "a\x7b\x7by\x7d\x7d".toList).1 =
      ⟨[((normalize "a\x7b\x7bx\x7d\x7d".toList).1, [])],
       (normalize "a\x7b\x7bx\x7d\x7d".toList).1.length +
         (normalize "a\x7b\x7bx\x7d\x7d".toList).1.length,
       [((normalize "a\x7b\x7bx\x7d\x7d".toList).1,
         (splitPH "a\x7b\x7by\x7d\x7d".toList).2)]⟩ :=
  ⟨by decide, by decide, by decide,
   (C10_placeholder_collision "a\x7b\x7bx\x7d\x7d".toList "a\x7b\x7by\x7d\x7d".toList
     (by decide) (by decide) (by decide) (by decide) (by decide)).1⟩

/-!  ## The placeholder scan against its declarative description  -/

theorem splitPH_matches_of_decomp : ∀ (n : Nat) (t : JStr), t.length < n →
    (∃ a b c : JStr, t = a ++ '{' :: '{' :: (b ++ '}' :: '}' :: c) ∧ noLineTerm b) →
    (splitPH t).2 ≠ [] := by
  intro n
  induction n with
  | zero => intro t h; omega
  | succ n ih =>
    intro t ht hex
    obtain ⟨a, b, c, heq, hnl⟩ := hex
    cases hph : phSplit t with
    | some p =>
      obtain ⟨c1, rem⟩ := p
      rw [splitPH_pos hph]
      simp
    | none =>
      cases a with
      | nil =>
        exfalso
        rw [List.nil_append] at heq
        subst heq
        have hcl := findCloser_complete hnl c
        rw [phSplit, if_pos ⟨rfl, rfl⟩] at hph
        rw [hph] at hcl
        simp at hcl
      | cons a0 ar =>
        rw [List.cons_append] at heq
        subst heq
        rw [splitPH_neg hph]
        exact ih (ar ++ '{' :: '{' :: (b ++ '}' :: '}' :: c))
          (by simp at ht ⊢; omega) ⟨ar, b, c, rfl, hnl⟩

theorem splitPH_decomp_of_matches (t : JStr) (hm : (splitPH t).2 ≠ []) :
    ∃ a b c : JStr, t = a ++ '{' :: '{' :: (b ++ '}' :: '}' :: c) ∧ noLineTerm b := by
  obtain ⟨hj, hl, -, hms⟩ := splitPH_spec t
  rcases hms2 : (splitPH t).2 with _ | ⟨m0, mrest⟩
  · exact absurd hms2 hm
  · have hm0 := hms m0 (by rw [hms2]; simp)
    obtain ⟨content, hshape, hnl, -⟩ := hm0
    rcases hsg : (splitPH t).1 with _ | ⟨s0, srest⟩
    · rw [hsg] at hl
      simp at hl
    · rw [hsg, hms2, interleave_cons_cons] at hj
      refine ⟨s0, content, interleave srest mrest, ?_, hnl⟩
      rw [← hj, hshape]
      simp

/-- C8 counterexample: the text made of a double open brace, the content
a-newline-b, and a double close brace decomposes as open braces plus
characters plus close braces, yet the scan finds no match and normalization
returns the text unchanged with an empty placeholder list: the dot of the
regex matches any character except a line terminator, not any character. -/
theorem C8_normalize_scan_counterexample :
    "\x7b\x7ba\nb\x7d\x7d".toList =
      ([] : JStr) ++ '{' :: '{' :: ("a\nb".toList ++ '}' :: '}' :: ([] : JStr)) ∧
    (splitPH "\x7b\x7ba\nb\x7d\x7d".toList).2 = [] ∧
    normalize "\x7b\x7ba\nb\x7d\x7d".toList = ("\x7b\x7ba\nb\x7d\x7d".toList, []) := by
  exact ⟨by decide, by decide, by decide⟩

/-- C8 (amended): the placeholder normalization scan matches a double open
brace, then any characters EXCEPT the JavaScript line terminators
(non-greedy), then a double close brace: the literal segments interleaved
with the ordered matched substrings reproduce the text; the normalized key
interleaves the same segments with the markers numbered from 0 (`buildKey`);
every matched substring has the non-greedy placeholder shape (double open
brace, line-terminator-free closer-free content, double close brace); the
scan finds no match exactly when no such decomposition of the text exists;
and a matchless text normalizes to itself with an empty placeholder list. -/
theorem C8_normalize_scan (t : JStr) :
    interleave (splitPH t).1 (splitPH t).2 = t ∧
    normalize t = (buildKey (splitPH t).1 0, (splitPH t).2) ∧
    (∀ m ∈ (splitPH t).2, IsPHMatch m) ∧
    ((splitPH t).2 = [] ↔
      ¬∃ a b c : JStr, t = a ++ '{' :: '{' :: (b ++ '}' :: '}' :: c) ∧ noLineTerm b) ∧
    ((splitPH t).2 = [] → normalize t = (t, [])) := by
  obtain ⟨hj, hl, hi, hms⟩ := splitPH_spec t
  refine ⟨hj, ?_, hms, ?_, fun hm => normalize_no_match hm⟩
  · by_cases hm : (splitPH t).2 = []
    · rw [normalize_no_match hm]
      rcases hsg : (splitPH t).1 with _ | ⟨s0, srest⟩
      · rw [hsg] at hl
        simp at hl
      · have hs : srest = [] := by
          rw [hsg, hm] at hl
          simpa using hl
        subst hs
        rw [hsg, hm] at hj
        have hst : s0 = t := hj
        rw [hm, buildKey, hst]
    · rw [normalize_match hm]
  · constructor
    · intro h hex
      exact absurd h (splitPH_matches_of_decomp (t.length + 1) t (by omega) hex)
    · intro h
      by_contra hm
      exact h (splitPH_decomp_of_matches t hm)

/-- C8 witness: the scan at the matchless text `abc` and at `a{{x}}b`. -/
theorem C8_normalize_scan_witness :
    (splitPH "abc".toList).2 = [] ∧ normalize "abc".toList = ("abc".toList, []) :=
  ⟨by decide, (C8_normalize_scan "abc".toList).2.2.2.2 (by decide)⟩

/-- C9: walking any well-formed JSON value with the identity leaf action (key
translation off) returns the input value unchanged, and non-string scalar
leaves (numbers, booleans, null) are returned unchanged under every leaf
action and flag — the action is never applied to them. -/
theorem C9_identity_walk :
    (∀ (s : St) (j : Json), JWF j → traverseJSON false idAct s j = .ok (s, j)) ∧
    (∀ (tp : Bool) (act : Act) (s : St) (q : Int),
      traverseJSON tp act s (.num q) = .ok (s, .num q)) ∧
    (∀ (tp : Bool) (act : Act) (s : St) (b : Bool),
      traverseJSON tp act s (.bool b) = .ok (s, .bool b)) ∧
    (∀ (tp : Bool) (act : Act) (s : St),
      traverseJSON tp act s .null = .ok (s, .null)) := by
  refine ⟨?_, ?_, ?_, ?_⟩
  · intro s j hwf
    exact travF_ident (jfuel j) s j (le_refl _) hwf
  · intro tp act s q
    rfl
  · intro tp act s b
    rfl
  · intro tp act s
    rfl

/-- C9 witness: the identity walk on a concrete well-formed object. -/
theorem C9_identity_walk_witness :
    JWF (Json.obj [("k".toList, Json.str "v".toList)]) ∧
    traverseJSON false idAct St0 (Json.obj [("k".toList, Json.str "v".toList)]) =
      .ok (St0, Json.obj [("k".toList, Json.str "v".toList)]) := by
  have hwf : JWF (Json.obj [("k".toList, Json.str "v".toList)]) := by
    refine JWF.obj _ (by simp) ?_
    intro kv hkv
    obtain rfl : kv = ("k".toList, Json.str "v".toList) := by simpa using hkv
    exact JWF.str _
  exact ⟨hwf, C9_identity_walk.1 St0 _ hwf⟩

end DeeplJson
